import Mathlib

/-!
Verification of the kilo-style terminal text editor (single C source file).

The C program is shallowly embedded: raw `char *` buffers become `List Char`,
the per-render-character highlight array becomes `List EditorHighlight`, and
the global mutable `struct editorConfig E` becomes an explicit `EditorConfig`
value threaded through the operations.  A row's `idx` field is represented by
its position in the document's row list (the program maintains exactly this
invariant: `idx` is renumbered after every structural edit), and `size` /
`rsize` are the lengths of `chars` / `render`.  C strings are NUL-terminated;
reads of the terminator (e.g. `render[i + klen]` in the keyword scanner) are
modelled by `List.getD` with default `Char.ofNat 0`.
-/

/-- `#define KILO_TAB_STOP 8` from `my_editor/libraries.h` (line 12), the
header included by the main source file. -/
def KILO_TAB_STOP : Nat := 8

/-- The highlight classes of `enum editorHighlight`. -/
inductive EditorHighlight where
  | HL_NORMAL
  | HL_COMMENT
  | HL_MLCOMMENT
  | HL_KEYWORD1
  | HL_KEYWORD2
  | HL_STRING
  | HL_NUMBER
  | HL_MATCH
deriving DecidableEq, Repr, Inhabited

open EditorHighlight

/-- `HL_HIGHLIGHT_NUMBERS` flag bit. -/
def HL_HIGHLIGHT_NUMBERS : Nat := 1

/-- `HL_HIGHLIGHT_STRINGS` flag bit. -/
def HL_HIGHLIGHT_STRINGS : Nat := 2

/-- `struct editorSyntax`.  `char *` fields that the program only ever reads
as strings become `List Char`; a NULL comment marker and an empty one are
behaviourally identical in the C code (both make the corresponding
`strlen`-guard 0), so both are represented by `[]`. -/
structure EditorSyntax where
  filetype : List Char
  filematch : List (List Char)
  keywords : List (List Char)
  singleline_comment_start : List Char
  multiline_comment_start : List Char
  multiline_comment_end : List Char
  flags : Nat
deriving DecidableEq, Repr, Inhabited

/-- `is_separator`: whitespace (C-locale `isspace`), NUL, or one of the fixed
punctuation set (comma, dot, parens, arithmetic operators, comparison signs,
brackets, semicolon) given by the string literal in the C source. -/
def is_separator (c : Char) : Bool :=
  (c = ' ' || c = '\t' || c = '\n' || c = Char.ofNat 11 || c = Char.ofNat 12 || c = '\r')
  || c = Char.ofNat 0
  || (",.()+-/*=~%<>[];".toList.contains c)

/-- `C_HL_keywords`: the keyword list of the single `HLDB` entry.  A trailing
`'|'` tags a keyword as the second priority class (`HL_KEYWORD2`). -/
def C_HL_keywords : List (List Char) :=
  [ "switch".toList, "if".toList, "while".toList, "for".toList, "break".toList,
    "continue".toList, "return".toList, "else".toList,
    "struct".toList, "union".toList, "typedef".toList, "static".toList,
    "enum".toList, "class".toList, "case".toList,
    "int|".toList, "long|".toList, "double|".toList, "float|".toList,
    "char|".toList, "unsigned|".toList, "signed|".toList, "void|".toList ]

/-- `C_HL_extensions`. -/
def C_HL_extensions : List (List Char) :=
  [ ".c".toList, ".h".toList, ".cpp".toList ]

/-- The single entry of `HLDB`. -/
def HLDB_c : EditorSyntax :=
  { filetype := "c".toList
    filematch := C_HL_extensions
    keywords := C_HL_keywords
    singleline_comment_start := "//".toList
    multiline_comment_start := "/*".toList
    multiline_comment_end := "*/".toList
    flags := HL_HIGHLIGHT_NUMBERS ||| HL_HIGHLIGHT_STRINGS }

/-- The stripped text of a keyword entry: `klen = strlen(kw); if (kw2) klen--`. -/
def kwText (kw : List Char) : List Char :=
  if kw.getLast? = some '|' then kw.dropLast else kw

/-- Whether a keyword entry carries the trailing-pipe tag
(`keywords[j][klen - 1] == '|'`). -/
def kwIsKw2 (kw : List Char) : Bool :=
  kw.getLast? = some '|'

/-- The test of the keyword loop body: `!strncmp(&row->render[i], keywords[j],
klen) && is_separator(row->render[i + klen])`.  Reading `render[i + klen]`
when `i + klen` equals the render length reads the NUL terminator, hence
`getD` with default `Char.ofNat 0`. -/
def matchesKeyword (rem : List Char) (kw : List Char) : Bool :=
  (kwText kw).isPrefixOf rem && is_separator (rem.getD (kwText kw).length (Char.ofNat 0))

/-- The keyword loop of `editorUpdateSyntax`: scan the keyword list in
declaration order and report the first entry matching at the current
position, as `(klen, kw2)`. -/
def kwMatch (rem : List Char) : List (List Char) → Option (Nat × Bool)
  | [] => none
  | kw :: ks =>
    if matchesKeyword rem kw then some ((kwText kw).length, kwIsKw2 kw)
    else kwMatch rem ks

/-- The scanning `while` loop of `editorUpdateSyntax`, as a recursion over the
remaining suffix of `render`.  `acc` holds the highlight classes of the
already-consumed positions in reverse (so `prev_hl = row->hl[i-1]` is
`acc.headD HL_NORMAL`); a position left untouched by the C loop keeps the
initial `HL_NORMAL` from the `memset`, so the default step pushes
`HL_NORMAL`.  `fuel` is structural-recursion fuel: every iteration consumes
at least one character, so `rem.length + 1` always suffices (the `0` case is
unreachable from `editorUpdateSyntaxScan`).

The one C iteration that does not advance `i` is a matched keyword of
stripped length 0 (only possible for the degenerate entries `""` or `"|"`,
neither present in `HLDB`); it sets `prev_sep = 0` and re-processes the same
character, where every branch before the keyword one behaves as before and
the keyword branch is now disabled, i.e. exactly the default step.  That case
is folded into the default step here to keep the recursion structural. -/
def scanGo (sy : EditorSyntax) (rem : List Char) (fuel : Nat) (prevSep : Bool)
    (inString : Option Char) (inComment : Bool) (acc : List EditorHighlight) :
    List EditorHighlight × Bool :=
  match rem with
  | [] => (acc.reverse, inComment)
  | c :: rest =>
    match fuel with
    | 0 => (acc.reverse, inComment)
    | fuel + 1 =>
    -- single-line comments
    if sy.singleline_comment_start ≠ [] ∧ inString = none ∧ inComment = false ∧
        sy.singleline_comment_start.isPrefixOf (c :: rest) then
      ((List.replicate (c :: rest).length HL_COMMENT ++ acc).reverse, inComment)
    -- multi-line comments, currently inside one
    else if sy.multiline_comment_start ≠ [] ∧ sy.multiline_comment_end ≠ [] ∧
        inString = none ∧ inComment = true then
      if sy.multiline_comment_end.isPrefixOf (c :: rest) then
        scanGo sy ((c :: rest).drop sy.multiline_comment_end.length) fuel true inString false
          (List.replicate sy.multiline_comment_end.length HL_MLCOMMENT ++ acc)
      else
        scanGo sy rest fuel prevSep inString true ([HL_MLCOMMENT] ++ acc)
    -- multi-line comments, opener
    else if sy.multiline_comment_start ≠ [] ∧ sy.multiline_comment_end ≠ [] ∧
        inString = none ∧ sy.multiline_comment_start.isPrefixOf (c :: rest) then
      scanGo sy ((c :: rest).drop sy.multiline_comment_start.length) fuel prevSep inString true
        (List.replicate sy.multiline_comment_start.length HL_MLCOMMENT ++ acc)
    -- strings, currently inside one
    else if sy.flags &&& HL_HIGHLIGHT_STRINGS ≠ 0 ∧ inString.isSome then
      if c = '\\' ∧ rest ≠ [] then
        scanGo sy rest.tail fuel prevSep inString inComment ([HL_STRING, HL_STRING] ++ acc)
      else
        scanGo sy rest fuel true (if some c = inString then none else inString) inComment
          ([HL_STRING] ++ acc)
    -- strings, opening quote
    else if sy.flags &&& HL_HIGHLIGHT_STRINGS ≠ 0 ∧ inString = none ∧
        (c = '"' ∨ c = '\'') then
      scanGo sy rest fuel prevSep (some c) inComment ([HL_STRING] ++ acc)
    -- numbers
    else if sy.flags &&& HL_HIGHLIGHT_NUMBERS ≠ 0 ∧
        ((c.isDigit ∧ (prevSep = true ∨ acc.headD HL_NORMAL = HL_NUMBER)) ∨
          (c = '.' ∧ acc.headD HL_NORMAL = HL_NUMBER)) then
      scanGo sy rest fuel false inString inComment ([HL_NUMBER] ++ acc)
    -- keywords (only at a separator boundary), then the default step
    else
      match prevSep, kwMatch (c :: rest) sy.keywords with
      | true, some (klen, kw2) =>
        if klen = 0 then
          scanGo sy rest fuel (is_separator c) inString inComment ([HL_NORMAL] ++ acc)
        else
          scanGo sy ((c :: rest).drop klen) fuel false inString inComment
            (List.replicate klen (if kw2 then HL_KEYWORD2 else HL_KEYWORD1) ++ acc)
      | _, _ =>
        scanGo sy rest fuel (is_separator c) inString inComment ([HL_NORMAL] ++ acc)
termination_by structural fuel

/-- The scanning part of `editorUpdateSyntax` on one row: given the row's
`render` and the seed `in_comment` (from the previous row's
`hl_open_comment`), produce the highlight array and the final `in_comment`
(the row's new `hl_open_comment`).  Initial state: `prev_sep = 1`,
`in_string = 0`. -/
def editorUpdateSyntaxScan (sy : EditorSyntax) (render : List Char) (seed : Bool) :
    List EditorHighlight × Bool :=
  scanGo sy render (render.length + 1) true none seed []

/-- The inner `while (idx % KILO_TAB_STOP != 0) row->render[idx++] = ' ';` of
`editorUpdateRow`.  At most `KILO_TAB_STOP - 1` spaces are appended, so fuel
`KILO_TAB_STOP` always suffices. -/
def padGo : Nat → List Char → List Char
  | 0, acc => acc
  | fuel + 1, acc =>
    if acc.length % KILO_TAB_STOP = 0 then acc else padGo fuel (acc ++ [' '])

/-- The render-derivation loop of `editorUpdateRow`: a tab emits one space and
then pads with spaces up to the next multiple of `KILO_TAB_STOP`; every other
character passes through. -/
def renderGo (acc : List Char) : List Char → List Char
  | [] => acc
  | c :: cs =>
    if c = '\t' then renderGo (padGo KILO_TAB_STOP (acc ++ [' '])) cs
    else renderGo (acc ++ [c]) cs

/-- The `render` buffer computed by `editorUpdateRow` from `chars`
(`rsize` is its length). -/
def renderRow (chars : List Char) : List Char :=
  renderGo [] chars

/-- `editorRowCxToRx`: loop over the first `cx` characters, a tab advancing
`rx` to the next tab stop. -/
def cxToRxGo (rx : Nat) : List Char → Nat
  | [] => rx
  | c :: cs =>
    cxToRxGo ((if c = '\t' then rx + (KILO_TAB_STOP - 1) - rx % KILO_TAB_STOP else rx) + 1) cs

/-- `editorRowCxToRx row cx` reads `row->chars[j]` for `j < cx`. -/
def editorRowCxToRx (chars : List Char) (cx : Nat) : Nat :=
  cxToRxGo 0 (chars.take cx)

/-- The loop of `editorRowRxToCx`: walk `chars` accumulating `cur_rx`,
returning the current character index as soon as `cur_rx` passes `rx`;
if the loop completes, return `row->size`. -/
def rxToCxGo (rx : Nat) (cur : Nat) (cx : Nat) : List Char → Nat
  | [] => cx
  | c :: cs =>
    let cur' := (if c = '\t' then cur + (KILO_TAB_STOP - 1) - cur % KILO_TAB_STOP else cur) + 1
    if rx < cur' then cx else rxToCxGo rx cur' (cx + 1) cs

/-- `editorRowRxToCx`. -/
def editorRowRxToCx (chars : List Char) (rx : Nat) : Nat :=
  rxToCxGo rx 0 0 chars

/-- `erow`: one row of the document.  `idx` is the row's position in the
document list, `size = chars.length`, `rsize = render.length`. -/
structure Erow where
  chars : List Char
  render : List Char
  hl : List EditorHighlight
  hl_open_comment : Bool
deriving DecidableEq, Repr, Inhabited

/-- `memmove`-style insertion used by `editorInsertRow` (shift the elements
at and after `i` one slot towards the end) and by `editorRowInsertChar`. -/
def listInsertAt (l : List α) (i : Nat) (a : α) : List α :=
  l.take i ++ a :: l.drop i

/-- `memmove`-style removal used by `editorDelRow` and `editorRowDelChar`. -/
def listRemoveAt (l : List α) (i : Nat) : List α :=
  l.take i ++ l.drop (i + 1)

/-- `editorUpdateSyntax`, document level.  The row's highlight array is
reallocated and the scan is run with seed
`row->idx > 0 && E.row[row->idx - 1].hl_open_comment`; if afterwards the
row's `hl_open_comment` changed and `idx + 1 < numrows`, the next row is
updated recursively.  `nr` is the value of `E.numrows` at call time (during
`editorInsertRow` it is one less than the length of the row array, because
`numrows` is incremented only after `editorUpdateRow` returns).  The cascade
increments `idx` each step and stops at `nr`, so fuel `nr - idx + 1` always
suffices and the `0` case is unreachable from `editorUpdateSyntaxD`.
With `E.syntax == NULL` the function resets `hl` to all `HL_NORMAL` and
returns before touching `hl_open_comment`. -/
def editorUpdateSyntaxGo (syn : Option EditorSyntax) (nr : Nat) :
    Nat → List Erow → Nat → List Erow
  | 0, rows, _ => rows
  | fuel + 1, rows, idx =>
    let row := rows.getD idx default
    match syn with
    | none => rows.set idx { row with hl := List.replicate row.render.length HL_NORMAL }
    | some sy =>
      let seed := decide (0 < idx) && (rows.getD (idx - 1) default).hl_open_comment
      let res := editorUpdateSyntaxScan sy row.render seed
      let rows' := rows.set idx { row with hl := res.1, hl_open_comment := res.2 }
      if row.hl_open_comment ≠ res.2 ∧ idx + 1 < nr then
        editorUpdateSyntaxGo syn nr fuel rows' (idx + 1)
      else rows'

/-- `editorUpdateSyntax(&E.row[idx])` with `E.numrows = nr`. -/
def editorUpdateSyntaxD (syn : Option EditorSyntax) (nr : Nat)
    (rows : List Erow) (idx : Nat) : List Erow :=
  editorUpdateSyntaxGo syn nr (nr - idx + 1) rows idx

/-- `editorUpdateRow(&E.row[idx])`: recompute `render` (and `rsize`) from
`chars`, then run `editorUpdateSyntax` on the row. -/
def editorUpdateRowD (syn : Option EditorSyntax) (nr : Nat)
    (rows : List Erow) (idx : Nat) : List Erow :=
  let row := rows.getD idx default
  editorUpdateSyntaxD syn nr (rows.set idx { row with render := renderRow row.chars }) idx

/-- `struct editorConfig` (the fields the verified operations touch; the
viewport dimensions, status message and terminal state are external to the
claims).  `syn` is the `syntax` pointer, `rows` the `row` array together with
`numrows = rows.length`. -/
structure EditorConfig where
  cx : Nat
  cy : Nat
  rowoff : Nat
  coloff : Nat
  rows : List Erow
  dirty : Nat
  filename : Option (List Char)
  syn : Option EditorSyntax
deriving DecidableEq, Repr, Inhabited

/-- `editorInsertRow(at, s, len)`: bounds-check, shift the rows from `at`
down by one, create the row and run `editorUpdateRow` on it (with the cascade
bound still at the old `numrows`), then increment `numrows` and `dirty`. -/
def editorInsertRow (e : EditorConfig) (atIdx : Nat) (str : List Char) : EditorConfig :=
  if atIdx > e.rows.length then e
  else
    let rows1 := listInsertAt e.rows atIdx
      { chars := str, render := [], hl := [], hl_open_comment := false }
    let rows2 := editorUpdateRowD e.syn e.rows.length rows1 atIdx
    { e with rows := rows2, dirty := e.dirty + 1 }

/-- `editorDelRow(at)`. -/
def editorDelRow (e : EditorConfig) (atIdx : Nat) : EditorConfig :=
  if atIdx ≥ e.rows.length then e
  else { e with rows := listRemoveAt e.rows atIdx, dirty := e.dirty + 1 }

/-- `editorRowInsertChar(&E.row[rowIdx], at, c)`: clamp `at` to `[0, size]`
(out-of-range inserts append), splice the character in, recompute
render/highlight, increment `dirty`. -/
def editorRowInsertChar (e : EditorConfig) (rowIdx : Nat) (atPos : Nat) (c : Char) :
    EditorConfig :=
  let row := e.rows.getD rowIdx default
  let atp := if atPos > row.chars.length then row.chars.length else atPos
  let rows1 := e.rows.set rowIdx { row with chars := listInsertAt row.chars atp c }
  let rows2 := editorUpdateRowD e.syn rows1.length rows1 rowIdx
  { e with rows := rows2, dirty := e.dirty + 1 }

/-- `editorRowDelChar(&E.row[rowIdx], at)`: no-op when `at` is out of bounds,
otherwise remove the character, recompute render/highlight, increment
`dirty`. -/
def editorRowDelChar (e : EditorConfig) (rowIdx : Nat) (atPos : Nat) : EditorConfig :=
  let row := e.rows.getD rowIdx default
  if atPos ≥ row.chars.length then e
  else
    let rows1 := e.rows.set rowIdx { row with chars := listRemoveAt row.chars atPos }
    let rows2 := editorUpdateRowD e.syn rows1.length rows1 rowIdx
    { e with rows := rows2, dirty := e.dirty + 1 }

/-- `editorRowAppendString(&E.row[rowIdx], s, len)`. -/
def editorRowAppendString (e : EditorConfig) (rowIdx : Nat) (str : List Char) :
    EditorConfig :=
  let row := e.rows.getD rowIdx default
  let rows1 := e.rows.set rowIdx { row with chars := row.chars ++ str }
  let rows2 := editorUpdateRowD e.syn rows1.length rows1 rowIdx
  { e with rows := rows2, dirty := e.dirty + 1 }

/-- `editorInsertNewline()`: at column 0 insert an empty row before the
current one; otherwise move the tail `chars[cx:]` of the current row into a
new row at `cy + 1`, truncate the current row to `chars[:cx]` and recompute
it.  Finally the cursor moves to the start of the next line. -/
def editorInsertNewline (e : EditorConfig) : EditorConfig :=
  let e' :=
    if e.cx = 0 then editorInsertRow e e.cy []
    else
      let row := e.rows.getD e.cy default
      let e1 := editorInsertRow e (e.cy + 1) (row.chars.drop e.cx)
      let row1 := e1.rows.getD e.cy default
      let rows1 := e1.rows.set e.cy { row1 with chars := row1.chars.take e.cx }
      { e1 with rows := editorUpdateRowD e1.syn rows1.length rows1 e.cy }
  { e' with cy := e.cy + 1, cx := 0 }

/-- `editorDelChar()`: backspace.  At the end of the document or at `(0,0)`
it is a no-op; with `cx > 0` it deletes the character left of the cursor;
at column 0 it appends the current row to the previous one, deletes the
current row and relocates the cursor to the join point (the former length of
the previous row). -/
def editorDelChar (e : EditorConfig) : EditorConfig :=
  if e.cy = e.rows.length then e
  else if e.cx = 0 ∧ e.cy = 0 then e
  else
    let row := e.rows.getD e.cy default
    if 0 < e.cx then
      let e1 := editorRowDelChar e e.cy (e.cx - 1)
      { e1 with cx := e.cx - 1 }
    else
      let e1 := { e with cx := (e.rows.getD (e.cy - 1) default).chars.length }
      let e2 := editorRowAppendString e1 (e.cy - 1) row.chars
      let e3 := editorDelRow e2 e.cy
      { e3 with cy := e.cy - 1 }

/-- `ARROW_LEFT` key code (`enum editorKey`). -/
def ARROW_LEFT : Nat := 1000

/-- `ARROW_RIGHT` key code. -/
def ARROW_RIGHT : Nat := 1001

/-- `ARROW_UP` key code. -/
def ARROW_UP : Nat := 1002

/-- `ARROW_DOWN` key code. -/
def ARROW_DOWN : Nat := 1003

/-- `strstr(hay, needle)` as the offset of the first occurrence of `needle`
in `hay` (`none` when there is no occurrence; an empty needle matches at
offset 0, as in C). -/
def strstrOff (hay needle : List Char) : Option Nat :=
  match hay with
  | [] => if needle.isPrefixOf ([] : List Char) then some 0 else none
  | h :: t =>
    if needle.isPrefixOf (h :: t) then some 0
    else (strstrOff t needle).map (· + 1)

/-- Substring containment, the specification-level reading of "the row's
render form contains the query as a substring". -/
def containsSub (pat : List Char) : List Char → Bool
  | [] => pat.isPrefixOf ([] : List Char)
  | h :: t => pat.isPrefixOf (h :: t) || containsSub pat t

/-- `memset(&row->hl[off], v, n)`. -/
def hlMemset (hl : List EditorHighlight) (off n : Nat) (v : EditorHighlight) :
    List EditorHighlight :=
  hl.mapIdx (fun i h => if off ≤ i ∧ i < off + n then v else h)

/-- The static state of `editorFindCallback`: `last_match`, `direction`, and
the saved highlight of the previously matched line (`saved_hl_line` /
`saved_hl`, with `saved_hl == NULL` represented by `none`). -/
structure FindState where
  last_match : Int
  direction : Int
  saved : Option (Nat × List EditorHighlight)
deriving DecidableEq, Repr, Inhabited

/-- The search loop of `editorFindCallback`: run at most `numrows` times;
each iteration advances `current` by `direction`, wraps `-1 ↦ numrows - 1`
and `numrows ↦ 0`, and stops at the first row whose render contains the
query, yielding that row index and the render-space match offset. -/
def findLoopGo (query : List Char) (rows : List Erow) (dir : Int) :
    Nat → Int → Option (Int × Nat)
  | 0, _ => none
  | i + 1, current =>
    let cur1 := current + dir
    let cur2 := if cur1 = -1 then (rows.length : Int) - 1
      else if cur1 = (rows.length : Int) then 0 else cur1
    match strstrOff (rows.getD cur2.toNat default).render query with
    | some off => some (cur2, off)
    | none => findLoopGo query rows dir i cur2

/-- `editorFindCallback(query, key)`.  Restores the saved highlight overlay,
interprets the triggering key (enter/escape reset; right/down set the
direction forward; left/up backward; anything else restarts a forward
search), then searches and, on a match, moves the cursor to the matched row
and the character-space column of the match's render-space offset, records
the row's highlight and overlays `HL_MATCH` on the matched span. -/
def editorFindCallback (st : EditorConfig × FindState) (query : List Char) (key : Nat) :
    EditorConfig × FindState :=
  let e := st.1
  let fs := st.2
  let e := match fs.saved with
    | some (line, hl) =>
      { e with rows := e.rows.set line { (e.rows.getD line default) with hl := hl } }
    | none => e
  let fs := { fs with saved := none }
  if key = 13 ∨ key = 27 then
    (e, { fs with last_match := -1, direction := 1 })
  else
    let fs :=
      if key = ARROW_RIGHT ∨ key = ARROW_DOWN then { fs with direction := 1 }
      else if key = ARROW_LEFT ∨ key = ARROW_UP then { fs with direction := -1 }
      else { fs with last_match := -1, direction := 1 }
    let fs := if fs.last_match = -1 then { fs with direction := 1 } else fs
    match findLoopGo query e.rows fs.direction e.rows.length fs.last_match with
    | some (cur, off) =>
      let row := e.rows.getD cur.toNat default
      let e' := { e with
        cy := cur.toNat
        cx := editorRowRxToCx row.chars off
        rowoff := e.rows.length
        rows := e.rows.set cur.toNat { row with hl := hlMemset row.hl off query.length HL_MATCH } }
      (e', { fs with last_match := cur, saved := some (cur.toNat, row.hl) })
    | none => (e, fs)

/-- `editorRowsToString(&buflen)`: the flattened save blob (each row's
`chars` followed by one newline) together with the reported byte length
`buflen = Σ (size + 1)`. -/
def editorRowsToString (rows : List Erow) : List Char × Nat :=
  let totlen := rows.foldl (fun t r => t + (r.chars.length + 1)) 0
  (rows.foldl (fun b r => b ++ r.chars ++ ['\n']) [], totlen)

/-- The filematch test of `editorSelectSyntaxHighlight`: `strstr` finds the
first occurrence `p` of the pattern in the filename, and the pattern counts
as a match when it does not start with `'.'` or when `p[patlen] == '\0'`
(the occurrence is a filename suffix). -/
def extMatches (fname pat : List Char) : Bool :=
  match strstrOff fname pat with
  | none => false
  | some off => pat.headD (Char.ofNat 0) ≠ '.' || decide (off + pat.length = fname.length)

/-- `editorSelectSyntaxHighlight()`: reset `E.syntax`, and if the filename
matches a pattern of the (single) `HLDB` entry, select it and re-run
`editorUpdateSyntax` over every row. -/
def editorSelectSyntaxHighlight (e : EditorConfig) : EditorConfig :=
  let e0 := { e with syn := none }
  match e0.filename with
  | none => e0
  | some fname =>
    if HLDB_c.filematch.any (fun pat => extMatches fname pat) then
      let rows' := (List.range e0.rows.length).foldl
        (fun rs filerow => editorUpdateSyntaxD (some HLDB_c) e0.rows.length rs filerow) e0.rows
      { e0 with syn := some HLDB_c, rows := rows' }
    else e0

/-- `getline` applied repeatedly to the file contents: each returned chunk
runs up to and including a newline; a final chunk without a newline is also
returned.  `cur` accumulates the current chunk in reverse. -/
def getlinesGo (cur : List Char) : List Char → List (List Char)
  | [] => if cur = [] then [] else [cur.reverse]
  | c :: cs =>
    if c = '\n' then (cur.reverse ++ ['\n']) :: getlinesGo [] cs
    else getlinesGo (c :: cur) cs

/-- All lines `getline` yields for the given file contents. -/
def getlines (content : List Char) : List (List Char) :=
  getlinesGo [] content

/-- The `while (linelen > 0 && (line[linelen-1] == '\n' || line[linelen-1] ==
'\r')) linelen--;` loop of `editorOpen`: strip every trailing CR/LF. -/
def stripNlCr (line : List Char) : List Char :=
  (line.reverse.dropWhile (fun c => c = '\n' || c = '\r')).reverse

/-- `editorOpen(filename)` on file contents `content`: set the filename,
select syntax highlighting, insert one row per line (with trailing CR/LF
stripped), and clear `dirty`. -/
def editorOpen (e : EditorConfig) (fname : List Char) (content : List Char) :
    EditorConfig :=
  let e1 := editorSelectSyntaxHighlight { e with filename := some fname }
  let e2 := (getlines content).foldl
    (fun st line => editorInsertRow st st.rows.length (stripNlCr line)) e1
  { e2 with dirty := 0 }

/-- The status message `editorSave` sets: success reports the byte count,
any open/truncate/write failure reports an I/O error, and a cancelled
save-as prompt reports "Save aborted". -/
inductive SaveMsg where
  | written (n : Nat)
  | ioError
  | aborted
deriving DecidableEq, Repr

/-- The outcomes of the file-system calls `editorSave` makes, supplied by
the environment: the result of the save-as prompt (when there is no
filename), of `open`, of `ftruncate`, and the byte count returned by
`write`. -/
structure SaveEnv where
  promptResult : Option (List Char)
  openOk : Bool
  truncOk : Bool
  writeResult : Int
deriving DecidableEq, Repr, Inhabited

/-- `editorSave()`: resolve the filename (prompting when absent; a cancelled
prompt aborts), flatten the rows with `editorRowsToString`, then
`open`/`ftruncate`/`write`.  Only when `write` returns exactly the buffer
length is `dirty` cleared and the byte count reported; every failure leaves
the state as it was and sets the I/O error message. -/
def editorSave (env : SaveEnv) (e : EditorConfig) : EditorConfig × SaveMsg :=
  let resolved : Option EditorConfig :=
    match e.filename with
    | some _ => some e
    | none =>
      match env.promptResult with
      | none => none
      | some f => some (editorSelectSyntaxHighlight { e with filename := some f })
  match resolved with
  | none => (e, SaveMsg.aborted)
  | some e1 =>
    let bl := editorRowsToString e1.rows
    if env.openOk then
      if env.truncOk then
        if env.writeResult = (bl.2 : Int) then
          ({ e1 with dirty := 0 }, SaveMsg.written bl.2)
        else (e1, SaveMsg.ioError)
      else (e1, SaveMsg.ioError)
    else (e1, SaveMsg.ioError)

/-- The wrap-around step of the search loop, as described by the spec
("step `direction` at a time, wrapping cyclically"): advance by `dir`, then
wrap `-1` to `len - 1` and `len` to `0`.  This is the spec-level description
of the `current += direction; if (current == -1) ... else if (current ==
numrows) ...` step of `editorFindCallback`, named separately so the loop can
be compared against it. -/
def wrapStep (len : Nat) (dir : Int) (cur : Int) : Int :=
  if cur + dir = -1 then (len : Int) - 1
  else if cur + dir = (len : Int) then 0 else cur + dir

/-- The spec-level cyclic visit order of the search: the sequence of row
positions the loop inspects, starting one step after `cur`. -/
def visitPositions (len : Nat) (dir : Int) : Int → Nat → List Int
  | _, 0 => []
  | cur, n + 1 => wrapStep len dir cur :: visitPositions len dir (wrapStep len dir cur) n

/-! ### Helper lemmas -/

theorem map_getD (f : α → β) (l : List α) (i : Nat) (d : α) :
    (l.map f).getD i (f d) = f (l.getD i d) := by
  simp only [List.getD_eq_getElem?_getD, List.getElem?_map]
  cases l[i]? <;> simp

theorem set_getD_self (l : List α) (i : Nat) (d : α) :
    l.set i (l.getD i d) = l := by
  induction l generalizing i with
  | nil => simp
  | cons x xs ih =>
    cases i with
    | zero => simp [List.getD]
    | succ j => simp only [List.set, List.getD_cons_succ]; rw [ih]

theorem getD_set_self (l : List α) (i : Nat) (a : α) (d : α) (h : i < l.length) :
    (l.set i a).getD i d = a := by
  induction l generalizing i with
  | nil => simp at h
  | cons x xs ih =>
    cases i with
    | zero => simp [List.getD]
    | succ j =>
      simp only [List.set, List.getD_cons_succ]
      exact ih j (by simpa using h)

theorem listInsertAt_length (l : List α) (i : Nat) (a : α) (h : i ≤ l.length) :
    (listInsertAt l i a).length = l.length + 1 := by
  simp [listInsertAt]
  omega

theorem listRemoveAt_listInsertAt (l : List α) (i : Nat) (a : α) (h : i ≤ l.length) :
    listRemoveAt (listInsertAt l i a) i = l := by
  induction l generalizing i with
  | nil =>
    have hi : i = 0 := by simpa using h
    subst hi
    simp [listInsertAt, listRemoveAt]
  | cons x xs ih =>
    cases i with
    | zero => simp [listInsertAt, listRemoveAt]
    | succ j =>
      simp only [listInsertAt, listRemoveAt, List.take_succ_cons, List.drop_succ_cons,
        List.cons_append]
      have := ih j (by simpa using h)
      simp only [listInsertAt, listRemoveAt] at this
      rw [this]

theorem map_listInsertAt (f : α → β) (l : List α) (i : Nat) (a : α) :
    (listInsertAt l i a).map f = listInsertAt (l.map f) i (f a) := by
  simp [listInsertAt]

theorem map_listRemoveAt (f : α → β) (l : List α) (i : Nat) :
    (listRemoveAt l i).map f = listRemoveAt (l.map f) i := by
  simp [listRemoveAt]

/-- Setting a row to one with the same `chars` leaves the character contents
of the document unchanged. -/
theorem map_chars_set_preserve (rows : List Erow) (idx : Nat) (r : Erow)
    (h : r.chars = (rows.getD idx default).chars) :
    (rows.set idx r).map (·.chars) = rows.map (·.chars) := by
  simp only [List.map_set]
  rw [h, ← map_getD (fun x => x.chars) rows idx default]
  exact set_getD_self _ _ _

/-- `editorUpdateSyntaxGo` only rewrites `hl` / `hl_open_comment`; the
character content of every row is untouched. -/
theorem editorUpdateSyntaxGo_map_chars (syn : Option EditorSyntax) (nr : Nat) :
    ∀ (fuel : Nat) (rows : List Erow) (idx : Nat),
      (editorUpdateSyntaxGo syn nr fuel rows idx).map (·.chars) = rows.map (·.chars) := by
  intro fuel
  induction fuel with
  | zero => intro rows idx; rfl
  | succ n ih =>
    intro rows idx
    simp only [editorUpdateSyntaxGo]
    cases syn with
    | none => exact map_chars_set_preserve _ _ _ rfl
    | some sy =>
      simp only
      split
      · rw [ih]
        exact map_chars_set_preserve _ _ _ rfl
      · exact map_chars_set_preserve _ _ _ rfl

theorem editorUpdateSyntaxD_map_chars (syn : Option EditorSyntax) (nr : Nat)
    (rows : List Erow) (idx : Nat) :
    (editorUpdateSyntaxD syn nr rows idx).map (·.chars) = rows.map (·.chars) :=
  editorUpdateSyntaxGo_map_chars syn nr _ rows idx

theorem editorUpdateRowD_map_chars (syn : Option EditorSyntax) (nr : Nat)
    (rows : List Erow) (idx : Nat) :
    (editorUpdateRowD syn nr rows idx).map (·.chars) = rows.map (·.chars) := by
  unfold editorUpdateRowD
  rw [editorUpdateSyntaxD_map_chars]
  exact map_chars_set_preserve _ _ _ rfl

theorem editorUpdateRowD_length (syn : Option EditorSyntax) (nr : Nat)
    (rows : List Erow) (idx : Nat) :
    (editorUpdateRowD syn nr rows idx).length = rows.length := by
  have := congrArg List.length (editorUpdateRowD_map_chars syn nr rows idx)
  simpa using this

/-- Length of the tab-padding loop's result: it appends spaces until the
length is a multiple of `KILO_TAB_STOP`, bounded by the fuel. -/
theorem padGo_length :
    ∀ (fuel : Nat) (acc : List Char),
      (padGo fuel acc).length =
        acc.length + min fuel ((KILO_TAB_STOP - acc.length % KILO_TAB_STOP) % KILO_TAB_STOP) := by
  intro fuel
  induction fuel with
  | zero => intro acc; simp [padGo]
  | succ n ih =>
    intro acc
    simp only [padGo]
    split
    · simp only [KILO_TAB_STOP] at *
      omega
    · rw [ih]
      simp only [List.length_append, List.length_cons, List.length_nil, KILO_TAB_STOP] at *
      omega

/-- On a row consisting solely of tabs, each tab grows the render by exactly
`KILO_TAB_STOP` characters (the accumulator's length stays a multiple of the
tab stop). -/
theorem renderGo_tabs (n : Nat) :
    ∀ (acc : List Char), acc.length % KILO_TAB_STOP = 0 →
      (renderGo acc (List.replicate n '\t')).length = acc.length + KILO_TAB_STOP * n := by
  induction n with
  | zero => intro acc _; simp [renderGo]
  | succ m ih =>
    intro acc hacc
    simp only [List.replicate_succ, renderGo]
    rw [if_pos trivial]
    have hlen : (padGo KILO_TAB_STOP (acc ++ [' '])).length = acc.length + KILO_TAB_STOP := by
      rw [padGo_length]
      simp only [List.length_append, List.length_cons, List.length_nil, KILO_TAB_STOP] at *
      omega
    have hmod : (padGo KILO_TAB_STOP (acc ++ [' '])).length % KILO_TAB_STOP = 0 := by
      rw [hlen]
      simp only [KILO_TAB_STOP] at *
      omega
    rw [ih _ hmod, hlen]
    ring

/-- The rx accumulator of `editorRowCxToRx` is monotone: scanning more
characters never decreases it. -/
theorem cxToRxGo_le (l : List Char) :
    ∀ (rx : Nat), rx ≤ cxToRxGo rx l := by
  induction l with
  | nil => intro rx; simp [cxToRxGo]
  | cons c cs ih =>
    intro rx
    simp only [cxToRxGo]
    refine le_trans ?_ (ih _)
    simp only [KILO_TAB_STOP]
    split <;> omega

/-- Core of the cx/rx round trip: converting the first `cx` characters to a
render column and walking back recovers `cx`, for any starting accumulators. -/
theorem rxToCxGo_cxToRxGo (chars : List Char) :
    ∀ (cx cur cxAcc : Nat), cx ≤ chars.length →
      rxToCxGo (cxToRxGo cur (chars.take cx)) cur cxAcc chars = cxAcc + cx := by
  induction chars with
  | nil =>
    intro cx cur cxAcc h
    have : cx = 0 := by simpa using h
    subst this
    simp [cxToRxGo, rxToCxGo]
  | cons c cs ih =>
    intro cx cur cxAcc h
    cases cx with
    | zero =>
      simp only [List.take_zero, cxToRxGo, rxToCxGo]
      have hlt : cur <
          (if c = '\t' then cur + (KILO_TAB_STOP - 1) - cur % KILO_TAB_STOP else cur) + 1 := by
        simp only [KILO_TAB_STOP]
        split <;> omega
      rw [if_pos hlt]
      omega
    | succ k =>
      simp only [List.take_succ_cons, cxToRxGo, rxToCxGo]
      have hge := cxToRxGo_le (cs.take k)
        ((if c = '\t' then cur + (KILO_TAB_STOP - 1) - cur % KILO_TAB_STOP else cur) + 1)
      rw [if_neg (by omega)]
      rw [ih k _ (cxAcc + 1) (by simpa using h)]
      omega

/-- C5: a row of `n` tab characters renders to `KILO_TAB_STOP * n = 8 * n`
characters, and for every row and character-space column `cx ∈ [0, size]`,
`editorRowRxToCx` applied to `editorRowCxToRx row cx` reproduces `cx`. -/
theorem claim_C5 :
    KILO_TAB_STOP = 8 ∧
    (∀ n : Nat, (renderRow (List.replicate n '\t')).length = KILO_TAB_STOP * n) ∧
    (∀ (chars : List Char) (cx : Nat), cx ≤ chars.length →
      editorRowRxToCx chars (editorRowCxToRx chars cx) = cx) := by
  refine ⟨rfl, ?_, ?_⟩
  · intro n
    have := renderGo_tabs n [] (by simp)
    simpa [renderRow] using this
  · intro chars cx h
    have := rxToCxGo_cxToRxGo chars cx 0 0 h
    simpa [editorRowRxToCx, editorRowCxToRx] using this

/-- Witness for C5 at a concrete row and column. -/
theorem claim_C5_witness :
    (renderRow (List.replicate 2 '\t')).length = KILO_TAB_STOP * 2 ∧
    editorRowRxToCx "a\tb".toList (editorRowCxToRx "a\tb".toList 2) = 2 :=
  ⟨claim_C5.2.1 2, claim_C5.2.2 "a\tb".toList 2 (by decide)⟩

/-- C8 counterexample: the round trip fails for an out-of-range position.
On the one-row document with empty row, inserting `'x'` at position 1
appends it (the position is clamped to the row length 0), and deleting at
position 1 is a no-op, so the row's `chars` is `['x']` afterwards, not its
pre-insert value `[]`. -/
theorem claim_C8_counterexample :
    (editorRowDelChar (editorRowInsertChar
        { cx := 0, cy := 0, rowoff := 0, coloff := 0,
          rows := [{ chars := [], render := [], hl := [], hl_open_comment := false }],
          dirty := 0, filename := none, syn := none } 0 1 'x') 0 1).rows.map
        (fun r => r.chars)
      ≠ ({ cx := 0, cy := 0, rowoff := 0, coloff := 0,
             rows := [{ chars := [], render := [], hl := [], hl_open_comment := false }],
             dirty := 0, filename := none, syn := none } : EditorConfig).rows.map
        (fun r => r.chars) := by
  decide

/-- C8 (amended): for every document, row, and position `k` within the row
(`k ≤ size`), inserting a character at `k` and then deleting at `k` restores
the character contents of every row to the pre-insert value.  (For `k >
size` the insert appends at the end of the row but the delete is a no-op, so
the row is not restored — the round trip holds exactly on in-range
positions.) -/
theorem claim_C8 (e : EditorConfig) (rowIdx k : Nat) (c : Char)
    (hrow : rowIdx < e.rows.length)
    (hk : k ≤ (e.rows.getD rowIdx default).chars.length) :
    (editorRowDelChar (editorRowInsertChar e rowIdx k c) rowIdx k).rows.map
        (fun r => r.chars)
      = e.rows.map (fun r => r.chars) := by
  simp only [editorRowInsertChar]
  rw [if_neg (by omega)]
  set row := e.rows.getD rowIdx default with hrowdef
  set rows1 := e.rows.set rowIdx { row with chars := listInsertAt row.chars k c } with hrows1
  set e1 : EditorConfig := { e with
    rows := editorUpdateRowD e.syn rows1.length rows1 rowIdx, dirty := e.dirty + 1 }
    with he1
  have hmap1 : e1.rows.map (fun r => r.chars)
      = (e.rows.map (fun r => r.chars)).set rowIdx (listInsertAt row.chars k c) := by
    rw [he1]
    simp only
    rw [editorUpdateRowD_map_chars, hrows1, List.map_set]
  have hlen1 : e1.rows.length = e.rows.length := by
    have := congrArg List.length hmap1
    simpa using this
  have hchars1 : (e1.rows.getD rowIdx default).chars = listInsertAt row.chars k c := by
    rw [← map_getD (fun r => r.chars) e1.rows rowIdx default, hmap1]
    exact getD_set_self _ _ _ _ (by simpa using hrow)
  have hinslen : (listInsertAt row.chars k c).length = row.chars.length + 1 :=
    listInsertAt_length _ _ _ hk
  simp only [editorRowDelChar]
  rw [if_neg (by rw [hchars1, hinslen]; omega)]
  simp only
  rw [editorUpdateRowD_map_chars, List.map_set, hchars1, hmap1]
  simp only
  rw [listRemoveAt_listInsertAt _ _ _ hk, List.set_set]
  rw [show row.chars = (e.rows.map (fun r => r.chars)).getD rowIdx ((default : Erow).chars) by
    rw [map_getD (fun r => r.chars) e.rows rowIdx default]]
  exact set_getD_self _ _ _

/-- Witness for C8 at a concrete document, row and in-range position. -/
theorem claim_C8_witness :
    (editorRowDelChar (editorRowInsertChar
        { cx := 0, cy := 0, rowoff := 0, coloff := 0,
          rows := [{ chars := ['a', 'b'], render := ['a', 'b'], hl := [], hl_open_comment := false }],
          dirty := 0, filename := none, syn := none } 0 1 'x') 0 1).rows.map
        (fun r => r.chars)
      = ({ cx := 0, cy := 0, rowoff := 0, coloff := 0,
             rows := [{ chars := ['a', 'b'], render := ['a', 'b'], hl := [], hl_open_comment := false }],
             dirty := 0, filename := none, syn := none } : EditorConfig).rows.map
        (fun r => r.chars) :=
  claim_C8 _ 0 1 'x' (by decide) (by decide)

theorem getD_listInsertAt_self (l : List α) (i : Nat) (a : α) (d : α) (h : i ≤ l.length) :
    (listInsertAt l i a).getD i d = a := by
  induction l generalizing i with
  | nil =>
    have : i = 0 := by simpa using h
    subst this
    simp [listInsertAt, List.getD]
  | cons x xs ih =>
    cases i with
    | zero => simp [listInsertAt, List.getD]
    | succ j =>
      simp only [listInsertAt, List.take_succ_cons, List.drop_succ_cons, List.cons_append,
        List.getD_cons_succ]
      exact ih j (by simpa using h)

theorem getD_listInsertAt_succ (l : List α) (i : Nat) (a : α) (d : α) (h : i ≤ l.length) :
    (listInsertAt l i a).getD (i + 1) d = l.getD i d := by
  induction l generalizing i with
  | nil =>
    have : i = 0 := by simpa using h
    subst this
    simp [listInsertAt, List.getD]
  | cons x xs ih =>
    cases i with
    | zero => simp [listInsertAt, List.getD]
    | succ j =>
      simp only [listInsertAt, List.take_succ_cons, List.drop_succ_cons, List.cons_append,
        List.getD_cons_succ]
      exact ih j (by simpa using h)

theorem set_listInsertAt_self (l : List α) (i : Nat) (a b : α) (h : i ≤ l.length) :
    (listInsertAt l i a).set i b = listInsertAt l i b := by
  induction l generalizing i with
  | nil =>
    have : i = 0 := by simpa using h
    subst this
    simp [listInsertAt]
  | cons x xs ih =>
    cases i with
    | zero => simp [listInsertAt]
    | succ j =>
      simp only [listInsertAt, List.take_succ_cons, List.drop_succ_cons, List.cons_append,
        List.set_cons_succ]
      have := ih j (by simpa using h)
      simp only [listInsertAt] at this
      rw [this]

theorem listRemoveAt_listInsertAt_succ (l : List α) (i : Nat) (v : α) (h : i < l.length) :
    listRemoveAt (listInsertAt l i v) (i + 1) = l.set i v := by
  induction l generalizing i with
  | nil => simp at h
  | cons x xs ih =>
    cases i with
    | zero =>
      simp [listInsertAt, listRemoveAt]
    | succ j =>
      simp only [listInsertAt, listRemoveAt, List.take_succ_cons, List.drop_succ_cons,
        List.cons_append, List.set_cons_succ]
      have := ih j (by simpa using h)
      simp only [listInsertAt, listRemoveAt] at this
      rw [this]

theorem getD_set_ne (l : List α) (i j : Nat) (a d : α) (h : i ≠ j) :
    (l.set i a).getD j d = l.getD j d := by
  induction l generalizing i j with
  | nil => simp
  | cons x xs ih =>
    cases i with
    | zero =>
      cases j with
      | zero => exact absurd rfl h
      | succ j2 => simp [List.getD]
    | succ i2 =>
      cases j with
      | zero => simp [List.getD]
      | succ j2 =>
        simp only [List.set_cons_succ, List.getD_cons_succ]
        exact ih i2 j2 (by omega)

theorem listRemoveAt_set_lt (l : List α) (i j : Nat) (b : α) (h : j < i) :
    listRemoveAt (l.set j b) i = (listRemoveAt l i).set j b := by
  induction l generalizing i j with
  | nil => simp [listRemoveAt]
  | cons x xs ih =>
    cases j with
    | zero =>
      cases i with
      | zero => omega
      | succ i2 =>
        simp [listRemoveAt]
    | succ j2 =>
      cases i with
      | zero => omega
      | succ i2 =>
        simp only [List.set_cons_succ, listRemoveAt, List.take_succ_cons, List.drop_succ_cons,
          List.cons_append]
        have := ih i2 j2 (by omega)
        simp only [listRemoveAt] at this
        rw [this]

theorem editorInsertRow_rows_map (e : EditorConfig) (i : Nat) (str : List Char)
    (h : i ≤ e.rows.length) :
    (editorInsertRow e i str).rows.map (fun r => r.chars)
      = listInsertAt (e.rows.map (fun r => r.chars)) i str := by
  simp only [editorInsertRow]
  rw [if_neg (by omega)]
  simp only
  rw [editorUpdateRowD_map_chars, map_listInsertAt]

theorem editorInsertRow_cx (e : EditorConfig) (i : Nat) (str : List Char) :
    (editorInsertRow e i str).cx = e.cx := by
  simp only [editorInsertRow]
  split <;> rfl

theorem editorInsertRow_cy (e : EditorConfig) (i : Nat) (str : List Char) :
    (editorInsertRow e i str).cy = e.cy := by
  simp only [editorInsertRow]
  split <;> rfl

theorem editorRowAppendString_rows_map (e : EditorConfig) (i : Nat) (str : List Char) :
    (editorRowAppendString e i str).rows.map (fun r => r.chars)
      = (e.rows.map (fun r => r.chars)).set i ((e.rows.getD i default).chars ++ str) := by
  simp only [editorRowAppendString]
  rw [editorUpdateRowD_map_chars, List.map_set]

theorem editorDelRow_rows_map (e : EditorConfig) (i : Nat) (h : i < e.rows.length) :
    (editorDelRow e i).rows.map (fun r => r.chars)
      = listRemoveAt (e.rows.map (fun r => r.chars)) i := by
  simp only [editorDelRow]
  rw [if_neg (by omega)]
  simp only
  rw [map_listRemoveAt]

theorem editorRowAppendString_cx (e : EditorConfig) (i : Nat) (str : List Char) :
    (editorRowAppendString e i str).cx = e.cx := rfl

theorem editorRowAppendString_cy (e : EditorConfig) (i : Nat) (str : List Char) :
    (editorRowAppendString e i str).cy = e.cy := rfl

theorem editorDelRow_cx (e : EditorConfig) (i : Nat) : (editorDelRow e i).cx = e.cx := by
  simp only [editorDelRow]
  split <;> rfl

theorem editorDelRow_cy (e : EditorConfig) (i : Nat) : (editorDelRow e i).cy = e.cy := by
  simp only [editorDelRow]
  split <;> rfl

theorem editorRowAppendString_rows_length (e : EditorConfig) (i : Nat) (str : List Char) :
    (editorRowAppendString e i str).rows.length = e.rows.length := by
  have := congrArg List.length (editorRowAppendString_rows_map e i str)
  simpa using this

theorem getD_listInsertAt_lt (l : List α) (i j : Nat) (a d : α) (h : j < i)
    (h2 : i ≤ l.length) :
    (listInsertAt l i a).getD j d = l.getD j d := by
  induction l generalizing i j with
  | nil =>
    have : i = 0 := by simpa using h2
    omega
  | cons x xs ih =>
    cases i with
    | zero => omega
    | succ i2 =>
      simp only [listInsertAt, List.take_succ_cons, List.drop_succ_cons, List.cons_append]
      cases j with
      | zero => simp [List.getD]
      | succ j2 =>
        simp only [List.getD_cons_succ]
        have := ih i2 j2 (by omega) (by simpa using h2)
        simpa [listInsertAt] using this

/-- `editorDelChar` at column 0 of row `cy > 0` performs the join: row
`cy - 1` receives row `cy`'s characters, row `cy` is deleted, and the cursor
relocates to `(former length of row cy - 1, cy - 1)`. -/
theorem editorDelChar_join (f : EditorConfig) (h0 : f.cx = 0) (h1 : 0 < f.cy)
    (h2 : f.cy < f.rows.length) :
    (editorDelChar f).rows.map (fun r => r.chars)
      = listRemoveAt ((f.rows.map (fun r => r.chars)).set (f.cy - 1)
          ((f.rows.getD (f.cy - 1) default).chars ++ (f.rows.getD f.cy default).chars)) f.cy
    ∧ (editorDelChar f).cx = (f.rows.getD (f.cy - 1) default).chars.length
    ∧ (editorDelChar f).cy = f.cy - 1 := by
  simp only [editorDelChar]
  rw [if_neg (by omega), if_neg (by omega), if_neg (by omega)]
  refine ⟨?_, ?_, ?_⟩ <;> dsimp only
  · rw [editorDelRow_rows_map _ _ (by rw [editorRowAppendString_rows_length]; exact h2)]
    rw [editorRowAppendString_rows_map]
  · rw [editorDelRow_cx, editorRowAppendString_cx]

/-- `editorInsertNewline` with the cursor strictly inside row `cy`: the tail
`chars[cx:]` becomes a new row at `cy + 1`, row `cy` is truncated to
`chars[:cx]`, and the cursor moves to the start of the next line. -/
theorem editorInsertNewline_pos_spec (e : EditorConfig) (h : ¬ e.cx = 0)
    (hcy : e.cy < e.rows.length) :
    (editorInsertNewline e).rows.map (fun r => r.chars)
      = (listInsertAt (e.rows.map (fun r => r.chars)) (e.cy + 1)
          ((e.rows.getD e.cy default).chars.drop e.cx)).set e.cy
          ((e.rows.getD e.cy default).chars.take e.cx)
    ∧ (editorInsertNewline e).cx = 0
    ∧ (editorInsertNewline e).cy = e.cy + 1 := by
  have hmlen : (e.rows.map (fun r => r.chars)).length = e.rows.length := by simp
  have hinsmap := editorInsertRow_rows_map e (e.cy + 1)
    ((e.rows.getD e.cy default).chars.drop e.cx) (by omega)
  have hrow1 : ((editorInsertRow e (e.cy + 1)
        ((e.rows.getD e.cy default).chars.drop e.cx)).rows.getD e.cy default).chars
      = (e.rows.getD e.cy default).chars := by
    rw [← map_getD (fun r => r.chars)
        (editorInsertRow e (e.cy + 1) ((e.rows.getD e.cy default).chars.drop e.cx)).rows
        e.cy default, hinsmap,
      getD_listInsertAt_lt _ _ _ _ _ (by omega) (by rw [hmlen]; omega),
      map_getD (fun r => r.chars) e.rows e.cy default]
  refine ⟨?_, rfl, rfl⟩
  simp only [editorInsertNewline, if_neg h]
  rw [editorUpdateRowD_map_chars, List.map_set, hinsmap]
  simp only [hrow1]

/-- C3: splitting row `cy` at any `cx ∈ [0, size]` with `editorInsertNewline`
and then joining with `editorDelChar` (backspace at column 0 of the next
row) restores the character contents of every row and puts the cursor back
at `(cx, cy)`, the join point being the former length of the upper row. -/
theorem claim_C3 (e : EditorConfig)
    (hcy : e.cy < e.rows.length)
    (hcx : e.cx ≤ (e.rows.getD e.cy default).chars.length) :
    (editorDelChar (editorInsertNewline e)).rows.map (fun r => r.chars)
        = e.rows.map (fun r => r.chars)
    ∧ (editorDelChar (editorInsertNewline e)).cx = e.cx
    ∧ (editorDelChar (editorInsertNewline e)).cy = e.cy := by
  have hmlen : (e.rows.map (fun r => r.chars)).length = e.rows.length := by simp
  by_cases hcx0 : e.cx = 0
  · -- split at column 0: an empty row is inserted before row cy
    have hinsmap : (editorInsertRow e e.cy []).rows.map (fun r => r.chars)
        = listInsertAt (e.rows.map (fun r => r.chars)) e.cy [] :=
      editorInsertRow_rows_map e e.cy [] (le_of_lt hcy)
    have hne : editorInsertNewline e
        = { editorInsertRow e e.cy [] with cy := e.cy + 1, cx := 0 } := by
      simp only [editorInsertNewline, if_pos hcx0]
    set f : EditorConfig := { editorInsertRow e e.cy [] with cy := e.cy + 1, cx := 0 }
      with hf
    have hfrows : f.rows.map (fun r => r.chars)
        = listInsertAt (e.rows.map (fun r => r.chars)) e.cy [] := hinsmap
    have hflen : f.rows.length = e.rows.length + 1 := by
      have := congrArg List.length hfrows
      simpa [listInsertAt_length _ _ ([] : List Char)
        (by omega : e.cy ≤ (e.rows.map (fun r => r.chars)).length)] using this
    have hprev : (f.rows.getD e.cy default).chars = [] := by
      rw [← map_getD (fun r => r.chars) f.rows e.cy default, hfrows]
      exact getD_listInsertAt_self _ _ _ _ (by omega)
    have hcur : (f.rows.getD (e.cy + 1) default).chars
        = (e.rows.map (fun r => r.chars)).getD e.cy ((default : Erow).chars) := by
      rw [← map_getD (fun r => r.chars) f.rows (e.cy + 1) default, hfrows]
      exact getD_listInsertAt_succ _ _ _ _ (by omega)
    have hjoin := editorDelChar_join f rfl (by simp [hf]) (by rw [hflen]; simp [hf]; omega)
    rw [hne]
    have hfcy : f.cy = e.cy + 1 := rfl
    rw [hfcy, Nat.add_sub_cancel] at hjoin
    refine ⟨?_, ?_, ?_⟩
    · rw [hjoin.1, hprev, hcur, hfrows]
      rw [List.nil_append, set_listInsertAt_self _ _ _ _ (by omega)]
      rw [listRemoveAt_listInsertAt_succ _ _ _ (by omega)]
      exact set_getD_self _ _ _
    · rw [hjoin.2.1, hprev, hcx0]
      rfl
    · rw [hjoin.2.2]
  · -- split strictly inside the row
    obtain ⟨hfrows, hfcx, hfcy⟩ := editorInsertNewline_pos_spec e hcx0 hcy
    set R := (e.rows.getD e.cy default).chars with hR
    set f := editorInsertNewline e with hf
    have hflen : f.rows.length = e.rows.length + 1 := by
      have := congrArg List.length hfrows
      simpa [listInsertAt_length _ _ (R.drop e.cx)
        (by omega : e.cy + 1 ≤ (e.rows.map (fun r => r.chars)).length)] using this
    have hprev : (f.rows.getD e.cy default).chars = R.take e.cx := by
      rw [← map_getD (fun r => r.chars) f.rows e.cy default, hfrows]
      exact getD_set_self _ _ _ _ (by
        rw [listInsertAt_length _ _ (R.drop e.cx) (by omega)]
        omega)
    have hcur : (f.rows.getD (e.cy + 1) default).chars = R.drop e.cx := by
      rw [← map_getD (fun r => r.chars) f.rows (e.cy + 1) default, hfrows]
      rw [getD_set_ne _ _ _ _ _ (by omega)]
      exact getD_listInsertAt_self _ _ _ _ (by omega)
    have hjoin := editorDelChar_join f hfcx (by omega) (by omega)
    rw [hfcy, Nat.add_sub_cancel] at hjoin
    refine ⟨?_, ?_, ?_⟩
    · rw [hjoin.1, hprev, hcur, hfrows]
      rw [List.take_append_drop, List.set_set]
      rw [listRemoveAt_set_lt _ _ _ _ (by omega)]
      rw [listRemoveAt_listInsertAt _ _ _ (by omega)]
      rw [hR, show (e.rows.getD e.cy default).chars
          = (e.rows.map (fun r => r.chars)).getD e.cy ((default : Erow).chars) by
        rw [map_getD (fun r => r.chars) e.rows e.cy default]]
      exact set_getD_self _ _ _
    · rw [hjoin.2.1, hprev]
      simpa using hcx
    · exact hjoin.2.2

/-- Witness for C3 at a concrete two-row document split in the middle of
row 0. -/
theorem claim_C3_witness :
    (editorDelChar (editorInsertNewline
        { cx := 1, cy := 0, rowoff := 0, coloff := 0,
          rows := [{ chars := ['a', 'b'], render := ['a', 'b'], hl := [], hl_open_comment := false },
                   { chars := ['c'], render := ['c'], hl := [], hl_open_comment := false }],
          dirty := 0, filename := none, syn := none })).rows.map (fun r => r.chars)
      = [['a', 'b'], ['c']]
    ∧ (editorDelChar (editorInsertNewline
        { cx := 1, cy := 0, rowoff := 0, coloff := 0,
          rows := [{ chars := ['a', 'b'], render := ['a', 'b'], hl := [], hl_open_comment := false },
                   { chars := ['c'], render := ['c'], hl := [], hl_open_comment := false }],
          dirty := 0, filename := none, syn := none })).cx = 1 := by
  have h := claim_C3
      { cx := 1, cy := 0, rowoff := 0, coloff := 0,
        rows := [{ chars := ['a', 'b'], render := ['a', 'b'], hl := [], hl_open_comment := false },
                 { chars := ['c'], render := ['c'], hl := [], hl_open_comment := false }],
        dirty := 0, filename := none, syn := none } (by decide) (by decide)
  exact ⟨by rw [h.1]; rfl, by rw [h.2.1]⟩

/-- One-step equation for `scanGo` on the empty suffix. -/
theorem scanGo_nil (sy : EditorSyntax) (fuel : Nat) (prevSep : Bool) (inString : Option Char)
    (inComment : Bool) (acc : List EditorHighlight) :
    scanGo sy [] fuel prevSep inString inComment acc = (acc.reverse, inComment) := by
  cases fuel <;> rfl

/-- One-step equation for `scanGo` with exhausted fuel (never reached from
`editorUpdateSyntaxScan`). -/
theorem scanGo_zero (sy : EditorSyntax) (c : Char) (rest : List Char) (prevSep : Bool)
    (inString : Option Char) (inComment : Bool) (acc : List EditorHighlight) :
    scanGo sy (c :: rest) 0 prevSep inString inComment acc = (acc.reverse, inComment) := rfl

/-- One-step equation for `scanGo` on a nonempty suffix with fuel available:
exactly the body of the scanning loop. -/
theorem scanGo_step (sy : EditorSyntax) (c : Char) (rest : List Char) (fuel : Nat)
    (prevSep : Bool) (inString : Option Char) (inComment : Bool)
    (acc : List EditorHighlight) :
    scanGo sy (c :: rest) (fuel + 1) prevSep inString inComment acc =
      (if sy.singleline_comment_start ≠ [] ∧ inString = none ∧ inComment = false ∧
          sy.singleline_comment_start.isPrefixOf (c :: rest) then
        ((List.replicate (c :: rest).length HL_COMMENT ++ acc).reverse, inComment)
      else if sy.multiline_comment_start ≠ [] ∧ sy.multiline_comment_end ≠ [] ∧
          inString = none ∧ inComment = true then
        if sy.multiline_comment_end.isPrefixOf (c :: rest) then
          scanGo sy ((c :: rest).drop sy.multiline_comment_end.length) fuel true inString false
            (List.replicate sy.multiline_comment_end.length HL_MLCOMMENT ++ acc)
        else
          scanGo sy rest fuel prevSep inString true ([HL_MLCOMMENT] ++ acc)
      else if sy.multiline_comment_start ≠ [] ∧ sy.multiline_comment_end ≠ [] ∧
          inString = none ∧ sy.multiline_comment_start.isPrefixOf (c :: rest) then
        scanGo sy ((c :: rest).drop sy.multiline_comment_start.length) fuel prevSep inString true
          (List.replicate sy.multiline_comment_start.length HL_MLCOMMENT ++ acc)
      else if sy.flags &&& HL_HIGHLIGHT_STRINGS ≠ 0 ∧ inString.isSome then
        if c = '\\' ∧ rest ≠ [] then
          scanGo sy rest.tail fuel prevSep inString inComment ([HL_STRING, HL_STRING] ++ acc)
        else
          scanGo sy rest fuel true (if some c = inString then none else inString) inComment
            ([HL_STRING] ++ acc)
      else if sy.flags &&& HL_HIGHLIGHT_STRINGS ≠ 0 ∧ inString = none ∧
          (c = '"' ∨ c = '\'') then
        scanGo sy rest fuel prevSep (some c) inComment ([HL_STRING] ++ acc)
      else if sy.flags &&& HL_HIGHLIGHT_NUMBERS ≠ 0 ∧
          ((c.isDigit ∧ (prevSep = true ∨ acc.headD HL_NORMAL = HL_NUMBER)) ∨
            (c = '.' ∧ acc.headD HL_NORMAL = HL_NUMBER)) then
        scanGo sy rest fuel false inString inComment ([HL_NUMBER] ++ acc)
      else
        match prevSep, kwMatch (c :: rest) sy.keywords with
        | true, some (klen, kw2) =>
          if klen = 0 then
            scanGo sy rest fuel (is_separator c) inString inComment ([HL_NORMAL] ++ acc)
          else
            scanGo sy ((c :: rest).drop klen) fuel false inString inComment
              (List.replicate klen (if kw2 then HL_KEYWORD2 else HL_KEYWORD1) ++ acc)
        | _, _ =>
          scanGo sy rest fuel (is_separator c) inString inComment ([HL_NORMAL] ++ acc)) := rfl

theorem isPrefixOf_append_self (l t : List Char) : l.isPrefixOf (l ++ t) = true := by
  induction l with
  | nil => simp [List.isPrefixOf]
  | cons a as ih => simp [List.isPrefixOf, ih]

/-- While inside a multi-line comment, a row suffix containing no closer is
scanned entirely as comment and the final `in_comment` remains set. -/
theorem scanGo_inComment_open (sy : EditorSyntax) (hmcs : sy.multiline_comment_start ≠ [])
    (hmce : sy.multiline_comment_end ≠ []) :
    ∀ (fuel : Nat) (rem : List Char) (prevSep : Bool) (acc : List EditorHighlight),
      containsSub sy.multiline_comment_end rem = false →
      (scanGo sy rem fuel prevSep none true acc).2 = true := by
  intro fuel
  induction fuel with
  | zero =>
    intro rem prevSep acc h
    cases rem with
    | nil => rw [scanGo_nil]
    | cons c rest => rw [scanGo_zero]
  | succ n ih =>
    intro rem prevSep acc h
    cases rem with
    | nil => rw [scanGo_nil]
    | cons c rest =>
      rw [scanGo_step]
      simp only [containsSub, Bool.or_eq_false_iff] at h
      rw [if_neg (by simp), if_pos ⟨hmcs, hmce, rfl, rfl⟩, if_neg (by simp [h.1])]
      exact ih rest prevSep ([HL_MLCOMMENT] ++ acc) h.2

/-- A row whose render starts with the multi-line comment opener and whose
remainder contains no closer scans to `openComment = true` (provided the
opener position is not also a single-line comment start). -/
theorem scanRow_opener_general (sy : EditorSyntax) (rest : List Char)
    (hmcs : sy.multiline_comment_start ≠ [])
    (hmce : sy.multiline_comment_end ≠ [])
    (hscs : sy.singleline_comment_start = [] ∨
      sy.singleline_comment_start.isPrefixOf (sy.multiline_comment_start ++ rest) = false)
    (hrest : containsSub sy.multiline_comment_end rest = false) :
    (editorUpdateSyntaxScan sy (sy.multiline_comment_start ++ rest) false).2 = true := by
  obtain ⟨m, ms, hm⟩ : ∃ m ms, sy.multiline_comment_start = m :: ms := by
    cases hmm : sy.multiline_comment_start with
    | nil => exact absurd hmm hmcs
    | cons a b => exact ⟨a, b, rfl⟩
  unfold editorUpdateSyntaxScan
  rw [hm] at hscs ⊢
  simp only [List.cons_append] at hscs ⊢
  simp only [List.length_cons]
  rw [scanGo_step]
  rw [if_neg (by
    rcases hscs with h | h
    · simp [h]
    · rintro ⟨-, -, -, hp⟩
      simp [h] at hp)]
  rw [if_neg (by simp)]
  rw [if_pos ⟨hmcs, hmce, rfl, by
    rw [hm, ← List.cons_append]
    exact isPrefixOf_append_self _ _⟩]
  rw [hm, ← List.cons_append, List.drop_left]
  exact scanGo_inComment_open sy hmcs hmce _ rest _ _ hrest

/-- The recursion step of document-level `editorUpdateSyntax` with an active
descriptor: the row is scanned with the seed taken from the previous row's
stored `hl_open_comment`; when the row's `hl_open_comment` changes and a next
row exists (below `nr`), that next row is recomputed on the updated document
(so with this row's new value as its seed); otherwise the cascade stops. -/
theorem editorUpdateSyntaxD_step (sy : EditorSyntax) (nr : Nat) (rows : List Erow)
    (idx : Nat) :
    editorUpdateSyntaxD (some sy) nr rows idx
      = (let row := rows.getD idx default
         let seed := decide (0 < idx) && (rows.getD (idx - 1) default).hl_open_comment
         let res := editorUpdateSyntaxScan sy row.render seed
         let rows' := rows.set idx { row with hl := res.1, hl_open_comment := res.2 }
         if row.hl_open_comment ≠ res.2 ∧ idx + 1 < nr then
           editorUpdateSyntaxD (some sy) nr rows' (idx + 1)
         else rows') := by
  simp only [editorUpdateSyntaxD, editorUpdateSyntaxGo]
  split
  · next h =>
      rw [show nr - idx = nr - (idx + 1) + 1 from by omega]
      rfl
  · rfl

/-- C1: (i) scanning a row that begins with the multi-line comment opener and
has no closer afterwards ends with `openComment = true` (for any descriptor
with both markers, when the opener is not also a single-line comment start);
(ii) document-level `editorUpdateSyntax` scans row `idx` seeded with the
stored `hl_open_comment` of row `idx - 1` (row 0 seeds with false), and when
the row's `hl_open_comment` changes and a row below exists it recomputes that
next row on the updated document — so with this row's new value as its seed —
cascading forward row by row and stopping as soon as a row's computed state
no longer changes; (iii) concretely, on the document `["/*", "x"]` (all rows
scanned as open comment), inserting `*` and `/` at the end of row 0 flips row
0's `openComment` to false and triggers the recompute of row 1, whose
highlight becomes plain. -/
theorem claim_C1 :
    (∀ (sy : EditorSyntax) (rest : List Char),
        sy.multiline_comment_start ≠ [] → sy.multiline_comment_end ≠ [] →
        (sy.singleline_comment_start = [] ∨
          sy.singleline_comment_start.isPrefixOf
            (sy.multiline_comment_start ++ rest) = false) →
        containsSub sy.multiline_comment_end rest = false →
        (editorUpdateSyntaxScan sy (sy.multiline_comment_start ++ rest) false).2 = true)
    ∧ (∀ (sy : EditorSyntax) (nr : Nat) (rows : List Erow) (idx : Nat),
        editorUpdateSyntaxD (some sy) nr rows idx
          = (let row := rows.getD idx default
             let seed := decide (0 < idx) && (rows.getD (idx - 1) default).hl_open_comment
             let res := editorUpdateSyntaxScan sy row.render seed
             let rows' := rows.set idx { row with hl := res.1, hl_open_comment := res.2 }
             if row.hl_open_comment ≠ res.2 ∧ idx + 1 < nr then
               editorUpdateSyntaxD (some sy) nr rows' (idx + 1)
             else rows'))
    ∧ ((editorRowInsertChar (editorRowInsertChar
          { cx := 0, cy := 0, rowoff := 0, coloff := 0,
            rows := [{ chars := "/*".toList, render := "/*".toList,
                       hl := [HL_MLCOMMENT, HL_MLCOMMENT], hl_open_comment := true },
                     { chars := "x".toList, render := "x".toList,
                       hl := [HL_MLCOMMENT], hl_open_comment := true }],
            dirty := 0, filename := none, syn := some HLDB_c } 0 2 '*') 0 3 '/').rows.map
          (fun r => (r.chars, r.hl, r.hl_open_comment))
        = [("/**/".toList,
            [HL_MLCOMMENT, HL_MLCOMMENT, HL_MLCOMMENT, HL_MLCOMMENT], false),
           ("x".toList, [HL_NORMAL], false)])
    ∧ ((editorRowInsertChar
          { cx := 0, cy := 0, rowoff := 0, coloff := 0,
            rows := [{ chars := "/*".toList, render := "/*".toList,
                       hl := [HL_MLCOMMENT, HL_MLCOMMENT], hl_open_comment := true },
                     { chars := "x".toList, render := "x".toList,
                       hl := [HL_MLCOMMENT], hl_open_comment := true }],
            dirty := 0, filename := none, syn := some HLDB_c } 0 2 '*').rows.map
          (fun r => (r.chars, r.hl, r.hl_open_comment))
        = [("/**".toList, [HL_MLCOMMENT, HL_MLCOMMENT, HL_MLCOMMENT], true),
           ("x".toList, [HL_MLCOMMENT], true)]) :=
  ⟨scanRow_opener_general, editorUpdateSyntaxD_step, by decide, by decide⟩

/-- Witness for C1 at a concrete descriptor and row. -/
theorem claim_C1_witness :
    (editorUpdateSyntaxScan HLDB_c (HLDB_c.multiline_comment_start ++ " a".toList) false).2
      = true :=
  claim_C1.1 HLDB_c " a".toList (by decide) (by decide) (Or.inr (by decide)) (by decide)

/-- The keyword loop returns the first matching entry in declaration order. -/
theorem kwMatch_eq_find (rem : List Char) (ks : List (List Char)) :
    kwMatch rem ks = (ks.find? (fun kw => matchesKeyword rem kw)).map
      (fun kw => ((kwText kw).length, kwIsKw2 kw)) := by
  induction ks with
  | nil => rfl
  | cons kw ks ih =>
    simp only [kwMatch, List.find?]
    cases h : matchesKeyword rem kw <;> simp [h, ih]

/-- A successful keyword match is always followed by a separator (reading the
NUL terminator when the keyword ends the row). -/
theorem kwMatch_sep_after (rem : List Char) (ks : List (List Char)) (klen : Nat) (kw2 : Bool)
    (h : kwMatch rem ks = some (klen, kw2)) :
    is_separator (rem.getD klen (Char.ofNat 0)) = true := by
  induction ks with
  | nil => simp [kwMatch] at h
  | cons kw ks ih =>
    simp only [kwMatch] at h
    by_cases hm : matchesKeyword rem kw = true
    · rw [if_pos hm] at h
      cases h
      exact ((Bool.and_eq_true _ _).mp hm).2
    · rw [if_neg (by simpa using hm)] at h
      exact ih h

/-- The keyword step of the scanner: when `prev_sep` is set and no earlier
branch of the loop body fires, a keyword match of positive stripped length
marks `klen` render positions with the class selected by the trailing-pipe
tag and advances the scan past the span with `prev_sep` cleared. -/
theorem scanGo_keyword_step (sy : EditorSyntax) (c : Char) (rest : List Char) (fuel : Nat)
    (inString : Option Char) (inComment : Bool) (acc : List EditorHighlight)
    (klen : Nat) (kw2 : Bool)
    (h1 : ¬(sy.singleline_comment_start ≠ [] ∧ inString = none ∧ inComment = false ∧
        sy.singleline_comment_start.isPrefixOf (c :: rest)))
    (h2 : ¬(sy.multiline_comment_start ≠ [] ∧ sy.multiline_comment_end ≠ [] ∧
        inString = none ∧ inComment = true))
    (h3 : ¬(sy.multiline_comment_start ≠ [] ∧ sy.multiline_comment_end ≠ [] ∧
        inString = none ∧ sy.multiline_comment_start.isPrefixOf (c :: rest)))
    (h4 : ¬(sy.flags &&& HL_HIGHLIGHT_STRINGS ≠ 0 ∧ inString.isSome))
    (h5 : ¬(sy.flags &&& HL_HIGHLIGHT_STRINGS ≠ 0 ∧ inString = none ∧
        (c = '"' ∨ c = '\'')))
    (h6 : ¬(sy.flags &&& HL_HIGHLIGHT_NUMBERS ≠ 0 ∧
        ((c.isDigit ∧ ((true : Bool) = true ∨ acc.headD HL_NORMAL = HL_NUMBER)) ∨
          (c = '.' ∧ acc.headD HL_NORMAL = HL_NUMBER))))
    (hkw : kwMatch (c :: rest) sy.keywords = some (klen, kw2))
    (hklen : klen ≠ 0) :
    scanGo sy (c :: rest) (fuel + 1) true inString inComment acc
      = scanGo sy ((c :: rest).drop klen) fuel false inString inComment
          (List.replicate klen (if kw2 then HL_KEYWORD2 else HL_KEYWORD1) ++ acc) := by
  rw [scanGo_step, if_neg h1, if_neg h2, if_neg h3, if_neg h4, if_neg h5, if_neg h6, hkw]
  dsimp only
  rw [if_neg hklen]

/-- C2 counterexample to the claim as stated: with the two-keyword descriptor
`["a", "a+b"]` (no comments, no flags) scanning the row `"a+b "`, the longest
keyword whose text occurs at position 0 and is followed by a separator is
`"a+b"` (length 3, the `'+'` inside it is itself a separator so `"a"` also
matches), yet the scanner marks only the one-character span of `"a"` — it
takes the first match in declaration order, not the longest. -/
theorem claim_C2_counterexample :
    matchesKeyword "a+b ".toList "a+b".toList = true
    ∧ matchesKeyword "a+b ".toList "a".toList = true
    ∧ "a+b".toList.length = 3
    ∧ (editorUpdateSyntaxScan
        { filetype := [], filematch := [], keywords := ["a".toList, "a+b".toList],
          singleline_comment_start := [], multiline_comment_start := [],
          multiline_comment_end := [], flags := 0 } "a+b ".toList false).1
      = [HL_KEYWORD1, HL_NORMAL, HL_NORMAL, HL_NORMAL] := by
  decide

/-- C2 (amended): at a separator boundary the scanner marks the FIRST keyword
in the descriptor's declaration order whose stripped text occurs at the
current position and is followed by a separator — `kwMatch` is `List.find?`
over the keyword list — using `HL_KEYWORD2` for trailing-pipe entries and
`HL_KEYWORD1` otherwise, and advances the scan past the matched span with
`prev_sep` cleared.  (For the built-in C descriptor, whose keywords contain
no separator characters, at most one keyword can match at a position, so the
first match is also the longest.) -/
theorem claim_C2 :
    (∀ (rem : List Char) (ks : List (List Char)),
        kwMatch rem ks = (ks.find? (fun kw => matchesKeyword rem kw)).map
          (fun kw => ((kwText kw).length, kwIsKw2 kw)))
    ∧ (∀ (sy : EditorSyntax) (c : Char) (rest : List Char) (fuel : Nat)
        (inString : Option Char) (inComment : Bool) (acc : List EditorHighlight)
        (klen : Nat) (kw2 : Bool),
        ¬(sy.singleline_comment_start ≠ [] ∧ inString = none ∧ inComment = false ∧
            sy.singleline_comment_start.isPrefixOf (c :: rest)) →
        ¬(sy.multiline_comment_start ≠ [] ∧ sy.multiline_comment_end ≠ [] ∧
            inString = none ∧ inComment = true) →
        ¬(sy.multiline_comment_start ≠ [] ∧ sy.multiline_comment_end ≠ [] ∧
            inString = none ∧ sy.multiline_comment_start.isPrefixOf (c :: rest)) →
        ¬(sy.flags &&& HL_HIGHLIGHT_STRINGS ≠ 0 ∧ inString.isSome) →
        ¬(sy.flags &&& HL_HIGHLIGHT_STRINGS ≠ 0 ∧ inString = none ∧
            (c = '"' ∨ c = '\'')) →
        ¬(sy.flags &&& HL_HIGHLIGHT_NUMBERS ≠ 0 ∧
            ((c.isDigit ∧ ((true : Bool) = true ∨ acc.headD HL_NORMAL = HL_NUMBER)) ∨
              (c = '.' ∧ acc.headD HL_NORMAL = HL_NUMBER))) →
        kwMatch (c :: rest) sy.keywords = some (klen, kw2) →
        klen ≠ 0 →
        scanGo sy (c :: rest) (fuel + 1) true inString inComment acc
          = scanGo sy ((c :: rest).drop klen) fuel false inString inComment
              (List.replicate klen (if kw2 then HL_KEYWORD2 else HL_KEYWORD1) ++ acc)) :=
  ⟨kwMatch_eq_find, scanGo_keyword_step⟩

/-- Witness for C2 at the row `"int x"` of the built-in C descriptor. -/
theorem claim_C2_witness :
    scanGo HLDB_c "int x".toList 6 true none false []
      = scanGo HLDB_c ("int x".toList.drop 3) 5 false none false
          (List.replicate 3 HL_KEYWORD2 ++ []) := by
  have h := claim_C2.2 HLDB_c 'i' "nt x".toList 5 none false [] 3 true
    (by decide) (by decide) (by decide) (by decide) (by decide) (by decide)
    (by decide) (by decide)
  exact h

theorem getD_append_lt (l1 l2 : List α) (j : Nat) (d : α) (h : j < l1.length) :
    (l1 ++ l2).getD j d = l1.getD j d := by
  simp only [List.getD_eq_getElem?_getD]
  rw [List.getElem?_append, if_pos h]

theorem getD_append_len (l1 l2 : List α) (d : α) :
    (l1 ++ l2).getD l1.length d = l2.getD 0 d := by
  simp only [List.getD_eq_getElem?_getD]
  rw [List.getElem?_append_right (Nat.le_refl l1.length), Nat.sub_self]

theorem getD_reverse_extend (X acc : List EditorHighlight) (j : Nat) (d : EditorHighlight)
    (hj : j < acc.length) :
    (X ++ acc).reverse.getD j d = acc.reverse.getD j d := by
  rw [List.reverse_append, getD_append_lt _ _ _ _ (by simpa using hj)]

/-- The scanner never rewrites positions already recorded in `acc`: the
result agrees with `acc.reverse` on every index below `acc.length`. -/
theorem scanGo_prefix_stable (sy : EditorSyntax) (d : EditorHighlight) :
    ∀ (fuel : Nat) (rem : List Char) (ps : Bool) (is : Option Char) (ic : Bool)
      (acc : List EditorHighlight) (j : Nat), j < acc.length →
      (scanGo sy rem fuel ps is ic acc).1.getD j d = acc.reverse.getD j d := by
  intro fuel
  induction fuel with
  | zero =>
    intro rem ps is ic acc j hj
    cases rem with
    | nil => rw [scanGo_nil]
    | cons c rest => rw [scanGo_zero]
  | succ n ih =>
    intro rem ps is ic acc j hj
    cases rem with
    | nil => rw [scanGo_nil]
    | cons c rest =>
      rw [scanGo_step]
      repeat' split
      all_goals try rw [ih]
      all_goals
        first
          | exact getD_reverse_extend _ acc j d hj
          | exact getD_reverse_extend [HL_MLCOMMENT] acc j d hj
          | exact getD_reverse_extend [HL_STRING, HL_STRING] acc j d hj
          | exact getD_reverse_extend [HL_STRING] acc j d hj
          | exact getD_reverse_extend [HL_NUMBER] acc j d hj
          | exact getD_reverse_extend [HL_NORMAL] acc j d hj
          | (simp only [List.length_append, List.length_cons, List.length_replicate]; omega)

theorem getD0_replicate_ne (k : Nat) (v d w : EditorHighlight) (hv : v ≠ w) (hd : d ≠ w) :
    (List.replicate k v).getD 0 d ≠ w := by
  cases k with
  | zero => simpa [List.getD] using hd
  | succ m => simpa [List.replicate_succ, List.getD] using hv

/-- The highlight the scanner writes at the current position, expressed as
the head of the pushed block, for a recursive step pushing `X`. -/
theorem scan_push_getD (sy : EditorSyntax) (rem : List Char) (n : Nat) (p : Bool)
    (s : Option Char) (ic : Bool) (X acc : List EditorHighlight) (hX : X ≠ []) :
    (scanGo sy rem n p s ic (X ++ acc)).1.getD acc.length HL_NORMAL
      = X.reverse.getD 0 HL_NORMAL := by
  rw [scanGo_prefix_stable sy HL_NORMAL n rem p s ic (X ++ acc) acc.length
      (by have := List.length_pos.mpr hX; simp only [List.length_append]; omega)]
  rw [List.reverse_append,
    show acc.length = acc.reverse.length from (List.length_reverse acc).symm]
  exact getD_append_len _ _ _

/-- Variant of `scan_push_getD` for the single-line-comment branch, which
returns directly rather than recursing. -/
theorem pair_push_getD (X acc : List EditorHighlight) (b : Bool) :
    ((X ++ acc).reverse, b).1.getD acc.length HL_NORMAL = X.reverse.getD 0 HL_NORMAL := by
  dsimp only
  rw [List.reverse_append,
    show acc.length = acc.reverse.length from (List.length_reverse acc).symm]
  exact getD_append_len _ _ _

/-- With `prev_sep` clear the scanner cannot start a keyword at the current
position: whatever branch fires writes a non-keyword class there. -/
theorem scanGo_no_keyword_without_sep (sy : EditorSyntax) (c : Char) (rest : List Char)
    (fuel : Nat) (inString : Option Char) (inComment : Bool) (acc : List EditorHighlight) :
    (scanGo sy (c :: rest) (fuel + 1) false inString inComment acc).1.getD acc.length
        HL_NORMAL ≠ HL_KEYWORD1
    ∧ (scanGo sy (c :: rest) (fuel + 1) false inString inComment acc).1.getD acc.length
        HL_NORMAL ≠ HL_KEYWORD2 := by
  rw [scanGo_step]
  repeat' split
  all_goals try rw [pair_push_getD]
  all_goals try rw [scan_push_getD]
  all_goals try rw [List.reverse_replicate]
  all_goals
    first
      | exact ⟨getD0_replicate_ne _ _ _ _ (by decide) (by decide),
          getD0_replicate_ne _ _ _ _ (by decide) (by decide)⟩
      | exact ⟨by decide, by decide⟩
      | simp_all

/-- C4 counterexample to the claim as stated: in the row `""int ` the span
`int` is marked `HL_KEYWORD2` although the character immediately before it is
the closing quote `"`, which is not a separator — after a string closes, the
scanner sets `prev_sep`, so a keyword can also be recognised directly after a
quote (or a comment closer), not only after a separator or at row start. -/
theorem claim_C4_counterexample :
    (editorUpdateSyntaxScan HLDB_c ['"', '"', 'i', 'n', 't', ' '] false).1
      = [HL_STRING, HL_STRING, HL_KEYWORD2, HL_KEYWORD2, HL_KEYWORD2, HL_NORMAL]
    ∧ is_separator '"' = false := by
  decide

/-- C4 (amended): keyword highlighting requires the scanner's `prev_sep`
flag before the match (true at row start and after separator characters, but
also after a closing quote or a multi-line comment closer) and a separator —
possibly the row-terminating NUL — after the match: `"intx"` highlights
nothing, `"int x"` highlights `int`; every successful keyword match is
followed by a separator; and with `prev_sep` clear the scanner never writes
a keyword class at the current position. -/
theorem claim_C4 :
    (editorUpdateSyntaxScan HLDB_c "intx".toList false).1
        = [HL_NORMAL, HL_NORMAL, HL_NORMAL, HL_NORMAL]
    ∧ (editorUpdateSyntaxScan HLDB_c "int x".toList false).1
        = [HL_KEYWORD2, HL_KEYWORD2, HL_KEYWORD2, HL_NORMAL, HL_NORMAL]
    ∧ (∀ (rem : List Char) (ks : List (List Char)) (klen : Nat) (kw2 : Bool),
        kwMatch rem ks = some (klen, kw2) →
        is_separator (rem.getD klen (Char.ofNat 0)) = true)
    ∧ (∀ (sy : EditorSyntax) (c : Char) (rest : List Char) (fuel : Nat)
        (inString : Option Char) (inComment : Bool) (acc : List EditorHighlight),
        (scanGo sy (c :: rest) (fuel + 1) false inString inComment acc).1.getD acc.length
            HL_NORMAL ≠ HL_KEYWORD1
        ∧ (scanGo sy (c :: rest) (fuel + 1) false inString inComment acc).1.getD acc.length
            HL_NORMAL ≠ HL_KEYWORD2) :=
  ⟨by decide, by decide, kwMatch_sep_after, scanGo_no_keyword_without_sep⟩

/-- Witness for C4's separator-after requirement at the row `"int x"`. -/
theorem claim_C4_witness :
    is_separator ("int x".toList.getD 3 (Char.ofNat 0)) = true :=
  claim_C4.2.2.1 "int x".toList C_HL_keywords 3 true (by decide)

/-- C10 counterexample to the claim as stated: the render `",int` ends with
the keyword `int` preceded by the separator `,`, yet the whole row is
scanned as a string literal (the leading quote never closes), so `int` is
not highlighted as a keyword. -/
theorem claim_C10_counterexample :
    (editorUpdateSyntaxScan HLDB_c ['"', ',', 'i', 'n', 't'] false).1
      = [HL_STRING, HL_STRING, HL_STRING, HL_STRING, HL_STRING]
    ∧ "int".toList.isPrefixOf (['"', ',', 'i', 'n', 't'].drop 2) = true
    ∧ is_separator ',' = true := by
  decide

/-- C10 (amended): the position one past the end of the render buffer holds
the NUL terminator and `is_separator` classifies NUL as a separator, so a
keyword ending the row passes the separator-after test, provided the scan
reaches it with `prev_sep` set outside a string and comment: a row that is
exactly a keyword of the C descriptor, or a separator followed by such a
keyword, is fully highlighted with the keyword's class. -/
theorem claim_C10 :
    is_separator (Char.ofNat 0) = true
    ∧ (∀ kw ∈ C_HL_keywords,
        editorUpdateSyntaxScan HLDB_c (kwText kw) false
          = (List.replicate (kwText kw).length
              (if kwIsKw2 kw then HL_KEYWORD2 else HL_KEYWORD1), false))
    ∧ (∀ kw ∈ C_HL_keywords,
        editorUpdateSyntaxScan HLDB_c (' ' :: kwText kw) false
          = (HL_NORMAL :: List.replicate (kwText kw).length
              (if kwIsKw2 kw then HL_KEYWORD2 else HL_KEYWORD1), false)) := by
  refine ⟨by decide, ?_, ?_⟩ <;> (intro kw hkw; fin_cases hkw <;> decide)

/-- Witness for C10 at the keyword `int` (a trailing-pipe entry `int|`). -/
theorem claim_C10_witness :
    editorUpdateSyntaxScan HLDB_c (kwText "int|".toList) false
      = (List.replicate (kwText "int|".toList).length
          (if kwIsKw2 "int|".toList then HL_KEYWORD2 else HL_KEYWORD1), false) :=
  claim_C10.2.1 "int|".toList (by decide)

theorem foldl_append_rows (rows : List Erow) :
    ∀ (init : List Char),
      rows.foldl (fun b r => b ++ r.chars ++ ['\n']) init
        = init ++ (rows.map (fun r => r.chars ++ ['\n'])).flatten := by
  induction rows with
  | nil => intro init; simp
  | cons r rs ih =>
    intro init
    simp only [List.foldl_cons, List.map_cons, List.flatten_cons]
    rw [ih]
    simp [List.append_assoc]

theorem foldl_len_rows (rows : List Erow) :
    ∀ (init : Nat),
      rows.foldl (fun t r => t + (r.chars.length + 1)) init
        = init + ((rows.map (fun r => r.chars.length)).sum + rows.length) := by
  induction rows with
  | nil => intro init; simp
  | cons r rs ih =>
    intro init
    simp only [List.foldl_cons, List.map_cons, List.sum_cons, List.length_cons]
    rw [ih]
    omega

theorem flatten_rows_length (rows : List Erow) :
    ((rows.map (fun r => r.chars ++ ['\n'])).flatten).length
      = (rows.map (fun r => r.chars.length)).sum + rows.length := by
  induction rows with
  | nil => simp
  | cons r rs ih =>
    simp only [List.map_cons, List.flatten_cons, List.length_append, List.sum_cons,
      List.length_cons, ih]
    simp
    omega

/-- C9: loading `"a\r\nb\n"` yields exactly the two rows `a` and `b`
(trailing CR/LF stripped per line); `editorRowsToString` produces every
row's chars followed by one newline (the final newline always present) and
reports byte length `Σ size + numrows`, which equals the blob's length; and
saving the loaded buffer writes exactly `"a\nb\n"` (4 bytes). -/
theorem claim_C9 :
    ((editorOpen
        { cx := 0, cy := 0, rowoff := 0, coloff := 0, rows := [], dirty := 0,
          filename := none, syn := none } "a.txt".toList "a\r\nb\n".toList).rows.map
        (fun r => r.chars) = [['a'], ['b']])
    ∧ (∀ rows : List Erow,
        (editorRowsToString rows).1 = (rows.map (fun r => r.chars ++ ['\n'])).flatten
        ∧ (editorRowsToString rows).2 = (rows.map (fun r => r.chars.length)).sum + rows.length
        ∧ (editorRowsToString rows).1.length = (editorRowsToString rows).2)
    ∧ editorRowsToString (editorOpen
        { cx := 0, cy := 0, rowoff := 0, coloff := 0, rows := [], dirty := 0,
          filename := none, syn := none } "a.txt".toList "a\r\nb\n".toList).rows
      = ("a\nb\n".toList, 4) := by
  refine ⟨by decide, ?_, by decide⟩
  intro rows
  refine ⟨?_, ?_, ?_⟩
  · simpa [editorRowsToString] using foldl_append_rows rows []
  · simpa [editorRowsToString] using foldl_len_rows rows 0
  · have h1 : (editorRowsToString rows).1
        = (rows.map (fun r => r.chars ++ ['\n'])).flatten := by
      simpa [editorRowsToString] using foldl_append_rows rows []
    have h2 : (editorRowsToString rows).2
        = (rows.map (fun r => r.chars.length)).sum + rows.length := by
      simpa [editorRowsToString] using foldl_len_rows rows 0
    rw [h1, h2, flatten_rows_length]

theorem foldl_updateSyntaxD_map_chars (syn : Option EditorSyntax) (nr : Nat) :
    ∀ (l : List Nat) (rows : List Erow),
      ((l.foldl (fun rs i => editorUpdateSyntaxD syn nr rs i) rows).map (fun r => r.chars))
        = rows.map (fun r => r.chars) := by
  intro l
  induction l with
  | nil => intro rows; rfl
  | cons i is ih =>
    intro rows
    simp only [List.foldl_cons]
    rw [ih, editorUpdateSyntaxD_map_chars]

/-- `editorSelectSyntaxHighlight` re-runs highlighting but leaves the
character contents and the dirty counter unchanged. -/
theorem editorSelectSyntaxHighlight_preserves (e : EditorConfig) :
    (editorSelectSyntaxHighlight e).rows.map (fun r => r.chars) = e.rows.map (fun r => r.chars)
    ∧ (editorSelectSyntaxHighlight e).dirty = e.dirty := by
  simp only [editorSelectSyntaxHighlight]
  rcases hfn : e.filename with _ | f
  · exact ⟨rfl, rfl⟩
  · simp only
    split
    · exact ⟨foldl_updateSyntaxD_map_chars _ _ _ _, rfl⟩
    · exact ⟨rfl, rfl⟩

/-- C7: whenever the save does not report a successful write — the prompt was
cancelled, `open` failed, `ftruncate` failed, or `write` did not write the
whole buffer — the dirty counter and the character contents of every row are
unchanged and a non-fatal status message (I/O error or abort) is set; and
the dirty counter can only become 0 through a reported successful write (or
by having been 0 already). -/
theorem claim_C7 (env : SaveEnv) (e : EditorConfig) :
    ((∀ n, (editorSave env e).2 ≠ SaveMsg.written n) →
      ((editorSave env e).1.dirty = e.dirty
       ∧ (editorSave env e).1.rows.map (fun r => r.chars) = e.rows.map (fun r => r.chars)
       ∧ ((editorSave env e).2 = SaveMsg.ioError ∨ (editorSave env e).2 = SaveMsg.aborted)))
    ∧ ((editorSave env e).1.dirty = 0 →
        e.dirty = 0 ∨ ∃ n, (editorSave env e).2 = SaveMsg.written n) := by
  obtain ⟨pr, o, t, w⟩ := env
  simp only [editorSave]
  rcases hfn : e.filename with _ | f
  · -- no filename: prompt
    rcases pr with _ | f2
    · exact ⟨fun _ => ⟨rfl, rfl, Or.inr rfl⟩, fun h => Or.inl h⟩
    · simp only
      have hsel := editorSelectSyntaxHighlight_preserves { e with filename := some f2 }
      cases o
      · exact ⟨fun _ => ⟨hsel.2, hsel.1, Or.inl rfl⟩, fun h => Or.inl (hsel.2 ▸ h)⟩
      · cases t
        · exact ⟨fun _ => ⟨hsel.2, hsel.1, Or.inl rfl⟩, fun h => Or.inl (hsel.2 ▸ h)⟩
        · by_cases hw : w = ((editorRowsToString
              (editorSelectSyntaxHighlight { e with filename := some f2 }).rows).2 : Int)
          · rw [if_pos hw]
            exact ⟨fun hn => absurd rfl (hn _), fun _ => Or.inr ⟨_, rfl⟩⟩
          · rw [if_neg hw]
            exact ⟨fun _ => ⟨hsel.2, hsel.1, Or.inl rfl⟩, fun h => Or.inl (hsel.2 ▸ h)⟩
  · -- filename present
    simp only
    cases o
    · exact ⟨fun _ => ⟨rfl, rfl, Or.inl rfl⟩, fun h => Or.inl h⟩
    · cases t
      · exact ⟨fun _ => ⟨rfl, rfl, Or.inl rfl⟩, fun h => Or.inl h⟩
      · by_cases hw : w = ((editorRowsToString e.rows).2 : Int)
        · rw [if_pos hw]
          exact ⟨fun hn => absurd rfl (hn _), fun _ => Or.inr ⟨_, rfl⟩⟩
        · rw [if_neg hw]
          exact ⟨fun _ => ⟨rfl, rfl, Or.inl rfl⟩, fun h => Or.inl h⟩

/-- Witness for C7: a failing `open` with a dirty one-row document leaves
the dirty counter and contents unchanged and reports the I/O error. -/
theorem claim_C7_witness :
    (editorSave { promptResult := none, openOk := false, truncOk := true, writeResult := 2 }
        { cx := 0, cy := 0, rowoff := 0, coloff := 0,
          rows := [{ chars := ['a'], render := ['a'], hl := [], hl_open_comment := false }],
          dirty := 5, filename := some ['t'], syn := none }).1.dirty = 5
    ∧ ((editorSave { promptResult := none, openOk := false, truncOk := true, writeResult := 2 }
        { cx := 0, cy := 0, rowoff := 0, coloff := 0,
          rows := [{ chars := ['a'], render := ['a'], hl := [], hl_open_comment := false }],
          dirty := 5, filename := some ['t'], syn := none }).2 = SaveMsg.ioError
      ∨ (editorSave { promptResult := none, openOk := false, truncOk := true, writeResult := 2 }
        { cx := 0, cy := 0, rowoff := 0, coloff := 0,
          rows := [{ chars := ['a'], render := ['a'], hl := [], hl_open_comment := false }],
          dirty := 5, filename := some ['t'], syn := none }).2 = SaveMsg.aborted) := by
  have hmsg : (editorSave
      { promptResult := none, openOk := false, truncOk := true, writeResult := 2 }
      { cx := 0, cy := 0, rowoff := 0, coloff := 0,
        rows := [{ chars := ['a'], render := ['a'], hl := [], hl_open_comment := false }],
        dirty := 5, filename := some ['t'], syn := none }).2 = SaveMsg.ioError := by decide
  have h := (claim_C7
      { promptResult := none, openOk := false, truncOk := true, writeResult := 2 }
      { cx := 0, cy := 0, rowoff := 0, coloff := 0,
        rows := [{ chars := ['a'], render := ['a'], hl := [], hl_open_comment := false }],
        dirty := 5, filename := some ['t'], syn := none }).1
    (fun n => by rw [hmsg]; simp)
  exact ⟨h.1, h.2.2⟩

/-- `strstr` succeeds exactly when the needle occurs as a substring. -/
theorem strstrOff_isSome_iff (hay needle : List Char) :
    (strstrOff hay needle).isSome = containsSub needle hay := by
  induction hay with
  | nil =>
    cases h : needle.isPrefixOf ([] : List Char) <;>
      simp [strstrOff, containsSub, h]
  | cons a t ih =>
    cases h : needle.isPrefixOf (a :: t) <;>
      simp [strstrOff, containsSub, h, ih]

/-- The search loop is `findSome?` over the spec-level cyclic visit order. -/
theorem findLoopGo_eq_findSome (query : List Char) (rows : List Erow) (dir : Int) :
    ∀ (n : Nat) (cur : Int),
      findLoopGo query rows dir n cur
        = (visitPositions rows.length dir cur n).findSome? (fun p =>
            (strstrOff (rows.getD p.toNat default).render query).map (fun off => (p, off))) := by
  intro n
  induction n with
  | zero => intro cur; rfl
  | succ m ih =>
    intro cur
    simp only [findLoopGo, visitPositions, List.findSome?_cons]
    rw [show (if cur + dir = -1 then (rows.length : Int) - 1
        else if cur + dir = (rows.length : Int) then 0 else cur + dir)
      = wrapStep rows.length dir cur from rfl]
    cases h : strstrOff (rows.getD (wrapStep rows.length dir cur).toNat default).render query with
    | none => simpa [h] using ih (wrapStep rows.length dir cur)
    | some off => simp [h]

/-- Under the loop invariant the wrap step is reduction modulo `len`. -/
theorem wrapStep_eq_emod (len : Nat) (hlen : 0 < len) (dir cur : Int)
    (h1 : -1 ≤ cur + dir) (h2 : cur + dir ≤ (len : Int)) :
    wrapStep len dir cur = (cur + dir) % (len : Int)
    ∧ 0 ≤ (cur + dir) % (len : Int) ∧ (cur + dir) % (len : Int) < (len : Int) := by
  have hcases : cur + dir = -1 ∨ cur + dir = (len : Int) ∨
      (0 ≤ cur + dir ∧ cur + dir < (len : Int)) := by omega
  unfold wrapStep
  rcases hcases with h | h | h
  · rw [if_pos h, h]
    rw [show (-1 : Int) = ((len : Int) - 1) + (len : Int) * (-1) from by ring]
    rw [Int.add_mul_emod_self_left]
    rw [Int.emod_eq_of_lt (by omega) (by omega)]
    omega
  · have hne : ¬(cur + dir = -1) := by omega
    rw [if_neg hne, if_pos h, h, Int.emod_self]
    omega
  · have hne : ¬(cur + dir = -1) := by omega
    have hne2 : ¬(cur + dir = (len : Int)) := by omega
    rw [if_neg hne, if_neg hne2, Int.emod_eq_of_lt (by omega) (by omega)]
    omega

/-- Closed form of the visit order: position `i` of the visit list is
`(cur + dir * (i + 1)) mod len`. -/
theorem visitPositions_closed (len : Nat) (hlen : 0 < len) (dir : Int)
    (hdir : dir = 1 ∨ dir = -1) :
    ∀ (n : Nat) (cur : Int), -1 ≤ cur → cur < (len : Int) → (dir = -1 → 0 ≤ cur) →
      visitPositions len dir cur n
        = (List.range n).map (fun (i : Nat) => (cur + dir * ((i : Int) + 1)) % (len : Int)) := by
  intro n
  induction n with
  | zero => intro cur _ _ _; simp [visitPositions]
  | succ m ih =>
    intro cur hc1 hc2 hc3
    have hb1 : -1 ≤ cur + dir := by rcases hdir with h | h <;> (subst h; omega)
    have hb2 : cur + dir ≤ (len : Int) := by rcases hdir with h | h <;> (subst h; omega)
    obtain ⟨hw, hw0, hwlt⟩ := wrapStep_eq_emod len hlen dir cur hb1 hb2
    simp only [visitPositions, hw]
    rw [ih ((cur + dir) % (len : Int)) (by omega) hwlt (fun _ => hw0)]
    rw [List.range_succ_eq_map, List.map_cons, List.map_map]
    congr 1
    · congr 1
      push_cast
      ring
    · apply List.map_congr_left
      intro i _
      simp only [Function.comp]
      rw [Int.emod_add_emod]
      congr 1
      push_cast
      ring

theorem int_eq_zero_of_emod (len : Int) (_hlen : 0 < len) (m : Int)
    (h : m % len = 0) (hb : -len < m) (hb2 : m < len) : m = 0 := by
  have hd : len ∣ m := Int.dvd_of_emod_eq_zero h
  rcases lt_trichotomy m 0 with hm | hm | hm
  · have hdneg : len ∣ -m := (dvd_neg).mpr hd
    have h3 : (-m) % len = 0 := Int.emod_eq_zero_of_dvd hdneg
    have h2 : (-m) % len = -m := Int.emod_eq_of_lt (by omega) (by omega)
    omega
  · exact hm
  · have h2 : m % len = m := Int.emod_eq_of_lt (by omega) (by omega)
    omega

/-- The first `n ≤ len` positions of the cyclic visit order are pairwise
distinct: the search inspects each row at most once. -/
theorem visit_nodup (len : Nat) (hlen : 0 < len) (dir : Int) (hdir : dir = 1 ∨ dir = -1)
    (cur : Int) (n : Nat) (hn : n ≤ len) :
    ((List.range n).map
      (fun (i : Nat) => (cur + dir * ((i : Int) + 1)) % (len : Int))).Nodup := by
  refine List.Nodup.map_on ?_ (List.nodup_range n)
  intro i hi j hj hij
  have hi2 : i < n := List.mem_range.mp hi
  have hj2 : j < n := List.mem_range.mp hj
  have h0 : ((cur + dir * ((i : Int) + 1)) - (cur + dir * ((j : Int) + 1)))
      % (len : Int) = 0 := Int.emod_eq_emod_iff_emod_sub_eq_zero.mp hij
  have h1 : (cur + dir * ((i : Int) + 1)) - (cur + dir * ((j : Int) + 1))
      = dir * ((i : Int) - (j : Int)) := by ring
  rw [h1] at h0
  have hz := int_eq_zero_of_emod (len : Int) (by exact_mod_cast hlen)
    (dir * ((i : Int) - (j : Int))) h0
    (by rcases hdir with h | h <;> (subst h; omega))
    (by rcases hdir with h | h <;> (subst h; omega))
  rcases hdir with h | h <;> (subst h; omega)

/-- C6: on the rows rendering `["foo", "bar foo", "baz"]` with query
`"foo"`: the first step (a typed character, no prior match, forward) lands
on row 0; the next forward step (right arrow) lands on row 1; the next
forward step wraps cyclically back to row 0; and a backward step (left
arrow) taken from the match on row 1 lands on row 0.  In general the loop
equals `findSome?` over the spec-level cyclic visit order starting one step
after the last match; under the loop invariant that order is
`(cur + dir * (i + 1)) mod numrows` for `i < n`; its first `numrows`
positions are pairwise distinct (each row visited at most once); and
`strstr` succeeds exactly on rows whose render contains the query as a
substring. -/
theorem claim_C6 :
    ((editorFindCallback ({ cx := 0, cy := 0, rowoff := 0, coloff := 0, rows := [{ chars := "foo".toList, render := "foo".toList, hl := List.replicate 3 HL_NORMAL, hl_open_comment := false }, { chars := "bar foo".toList, render := "bar foo".toList, hl := List.replicate 7 HL_NORMAL, hl_open_comment := false }, { chars := "baz".toList, render := "baz".toList, hl := List.replicate 3 HL_NORMAL, hl_open_comment := false }], dirty := 0, filename := none, syn := none }, { last_match := -1, direction := 1, saved := none }) "foo".toList 102).2.last_match = 0 ∧ (editorFindCallback ({ cx := 0, cy := 0, rowoff := 0, coloff := 0, rows := [{ chars := "foo".toList, render := "foo".toList, hl := List.replicate 3 HL_NORMAL, hl_open_comment := false }, { chars := "bar foo".toList, render := "bar foo".toList, hl := List.replicate 7 HL_NORMAL, hl_open_comment := false }, { chars := "baz".toList, render := "baz".toList, hl := List.replicate 3 HL_NORMAL, hl_open_comment := false }], dirty := 0, filename := none, syn := none }, { last_match := -1, direction := 1, saved := none }) "foo".toList 102).1.cy = 0
      ∧ (editorFindCallback (editorFindCallback ({ cx := 0, cy := 0, rowoff := 0, coloff := 0, rows := [{ chars := "foo".toList, render := "foo".toList, hl := List.replicate 3 HL_NORMAL, hl_open_comment := false }, { chars := "bar foo".toList, render := "bar foo".toList, hl := List.replicate 7 HL_NORMAL, hl_open_comment := false }, { chars := "baz".toList, render := "baz".toList, hl := List.replicate 3 HL_NORMAL, hl_open_comment := false }], dirty := 0, filename := none, syn := none }, { last_match := -1, direction := 1, saved := none }) "foo".toList 102) "foo".toList ARROW_RIGHT).2.last_match = 1 ∧ (editorFindCallback (editorFindCallback ({ cx := 0, cy := 0, rowoff := 0, coloff := 0, rows := [{ chars := "foo".toList, render := "foo".toList, hl := List.replicate 3 HL_NORMAL, hl_open_comment := false }, { chars := "bar foo".toList, render := "bar foo".toList, hl := List.replicate 7 HL_NORMAL, hl_open_comment := false }, { chars := "baz".toList, render := "baz".toList, hl := List.replicate 3 HL_NORMAL, hl_open_comment := false }], dirty := 0, filename := none, syn := none }, { last_match := -1, direction := 1, saved := none }) "foo".toList 102) "foo".toList ARROW_RIGHT).1.cy = 1
      ∧ (editorFindCallback (editorFindCallback (editorFindCallback ({ cx := 0, cy := 0, rowoff := 0, coloff := 0, rows := [{ chars := "foo".toList, render := "foo".toList, hl := List.replicate 3 HL_NORMAL, hl_open_comment := false }, { chars := "bar foo".toList, render := "bar foo".toList, hl := List.replicate 7 HL_NORMAL, hl_open_comment := false }, { chars := "baz".toList, render := "baz".toList, hl := List.replicate 3 HL_NORMAL, hl_open_comment := false }], dirty := 0, filename := none, syn := none }, { last_match := -1, direction := 1, saved := none }) "foo".toList 102) "foo".toList ARROW_RIGHT) "foo".toList ARROW_RIGHT).2.last_match = 0 ∧ (editorFindCallback (editorFindCallback (editorFindCallback ({ cx := 0, cy := 0, rowoff := 0, coloff := 0, rows := [{ chars := "foo".toList, render := "foo".toList, hl := List.replicate 3 HL_NORMAL, hl_open_comment := false }, { chars := "bar foo".toList, render := "bar foo".toList, hl := List.replicate 7 HL_NORMAL, hl_open_comment := false }, { chars := "baz".toList, render := "baz".toList, hl := List.replicate 3 HL_NORMAL, hl_open_comment := false }], dirty := 0, filename := none, syn := none }, { last_match := -1, direction := 1, saved := none }) "foo".toList 102) "foo".toList ARROW_RIGHT) "foo".toList ARROW_RIGHT).1.cy = 0
      ∧ (editorFindCallback (editorFindCallback (editorFindCallback ({ cx := 0, cy := 0, rowoff := 0, coloff := 0, rows := [{ chars := "foo".toList, render := "foo".toList, hl := List.replicate 3 HL_NORMAL, hl_open_comment := false }, { chars := "bar foo".toList, render := "bar foo".toList, hl := List.replicate 7 HL_NORMAL, hl_open_comment := false }, { chars := "baz".toList, render := "baz".toList, hl := List.replicate 3 HL_NORMAL, hl_open_comment := false }], dirty := 0, filename := none, syn := none }, { last_match := -1, direction := 1, saved := none }) "foo".toList 102) "foo".toList ARROW_RIGHT) "foo".toList ARROW_LEFT).2.last_match = 0 ∧ (editorFindCallback (editorFindCallback (editorFindCallback ({ cx := 0, cy := 0, rowoff := 0, coloff := 0, rows := [{ chars := "foo".toList, render := "foo".toList, hl := List.replicate 3 HL_NORMAL, hl_open_comment := false }, { chars := "bar foo".toList, render := "bar foo".toList, hl := List.replicate 7 HL_NORMAL, hl_open_comment := false }, { chars := "baz".toList, render := "baz".toList, hl := List.replicate 3 HL_NORMAL, hl_open_comment := false }], dirty := 0, filename := none, syn := none }, { last_match := -1, direction := 1, saved := none }) "foo".toList 102) "foo".toList ARROW_RIGHT) "foo".toList ARROW_LEFT).1.cy = 0)
    ∧ (∀ (query : List Char) (rows : List Erow) (dir : Int) (n : Nat) (cur : Int),
        findLoopGo query rows dir n cur
          = (visitPositions rows.length dir cur n).findSome? (fun p =>
              (strstrOff (rows.getD p.toNat default).render query).map
                (fun off => (p, off))))
    ∧ (∀ (len : Nat), 0 < len → ∀ (dir : Int), dir = 1 ∨ dir = -1 →
        ∀ (n : Nat) (cur : Int), -1 ≤ cur → cur < (len : Int) → (dir = -1 → 0 ≤ cur) →
          visitPositions len dir cur n
            = (List.range n).map
                (fun (i : Nat) => (cur + dir * ((i : Int) + 1)) % (len : Int)))
    ∧ (∀ (len : Nat), 0 < len → ∀ (dir : Int), dir = 1 ∨ dir = -1 →
        ∀ (cur : Int) (n : Nat), n ≤ len →
          ((List.range n).map
            (fun (i : Nat) => (cur + dir * ((i : Int) + 1)) % (len : Int))).Nodup)
    ∧ (∀ (hay needle : List Char),
        (strstrOff hay needle).isSome = containsSub needle hay) := by
  refine ⟨by decide, findLoopGo_eq_findSome, ?_, ?_, strstrOff_isSome_iff⟩
  · intro len hlen dir hdir n cur h1 h2 h3
    exact visitPositions_closed len hlen dir hdir n cur h1 h2 h3
  · intro len hlen dir hdir cur n hn
    exact visit_nodup len hlen dir hdir cur n hn

/-- Witness for C6's general clauses at `numrows = 3`, forward direction,
no prior match. -/
theorem claim_C6_witness :
    visitPositions 3 1 (-1) 3
        = (List.range 3).map (fun (i : Nat) => ((-1) + 1 * ((i : Int) + 1)) % (3 : Int))
    ∧ ((List.range 3).map
        (fun (i : Nat) => ((-1) + 1 * ((i : Int) + 1)) % (3 : Int))).Nodup :=
  ⟨claim_C6.2.2.1 3 (by decide) 1 (Or.inl rfl) 3 (-1) (by decide) (by decide)
      (fun h => absurd h (by decide)),
    claim_C6.2.2.2.1 3 (by decide) 1 (Or.inl rfl) (-1) 3 (by decide)⟩
